import Mathlib

/-!
# go-tinylfu: the orchestrator of `tinylfu.go`

A shallow embedding of `New`, `T.Get` and `T.Add` from `tinylfu.go`.

* Go `int` is a 64-bit two's complement integer: values are `Int`, and the one
  increment of the file (`t.w++`) wraps explicitly (`wrap64`).
* Go `float64` arithmetic is embedded exactly: a `float64` value is the rational
  number it denotes and every operation rounds the exact result to the nearest
  binary64 value, ties to even (`f64Round`).
* The count-min sketch (`cm4`), the doorkeeper, the window LRU and the segmented
  LRU are types of the package that `tinylfu.go` only uses; their operations are
  the fields of `Parts`.  `Get` and `Add` are embedded over an arbitrary `Parts`.
* Every method call, every `fmt.Println` and every invocation of the eviction
  callback that `Get` or `Add` performs is recorded, in program order, in the list
  of `Call`s the embedded function returns next to the new state.
-/

namespace TinyLFU

/-! ## Machine arithmetic -/

/-- Two's complement wrap-around of a Go `int` (64 bits). -/
def wrap64 (x : Int) : Int := (x + 2 ^ 63) % 2 ^ 64 - 2 ^ 63

/-- Rounding of a rational to the nearest integer, ties to the even one. -/
def roundEven (y : ℚ) : Int :=
  let f := ⌊y⌋
  let r := y - f
  if r < 1 / 2 then f
  else if 1 / 2 < r then f + 1
  else if f % 2 = 0 then f else f + 1

/-- The binade exponent used for `x`: `⌊log₂ |x|⌋`, not below the exponent of the
smallest normal binary64 number (below it the spacing is that of the subnormals). -/
def f64Exp (x : ℚ) : Int := max (Int.log 2 |x|) (-1022)

/-- The distance between neighbouring binary64 values around `x` (53-bit significand). -/
def f64Ulp (x : ℚ) : ℚ := (2 : ℚ) ^ (f64Exp x - 52)

/-- Rounding of an exact result to binary64, round-to-nearest-even.  Overflow to
infinity is not represented: the magnitudes that occur in `New` are below `2 ^ 64`. -/
def f64Round (x : ℚ) : ℚ := roundEven (x / f64Ulp x) * f64Ulp x

/-- Go `float64(n)` for an `int` `n`. -/
def f64OfInt (n : Int) : ℚ := f64Round n

/-- Go `x * y` on `float64` operands. -/
def f64Mul (x y : ℚ) : ℚ := f64Round (x * y)

/-- Go `int(f)` for a `float64` `f`: the fractional part is discarded (truncation
towards zero). -/
def f64ToInt (f : ℚ) : Int := if 0 ≤ f then ⌊f⌋ else ⌈f⌉

/-! ## Data model -/

/-- Go `slruItem`: the positional fields of `slruItem{0, key, val, keyh}`. -/
structure slruItem (V : Type) where
  listid : Int
  key : String
  value : V
  keyh : Nat
deriving DecidableEq, Repr

/-- Go `Config`.  `OnEvict = none` is the nil callback. -/
structure Config (V : Type) where
  Size : Int
  Samples : Int
  OnEvict : Option (V → Unit)

/-- One observable action of `Get` or `Add`: a method call on one of the parts, a
line written by `fmt.Println` (the text and the printed value), or an invocation of
the eviction callback `t.onEvict`. -/
inductive Call (V Elem : Type) where
  | cmReset
  | dkReset
  | cmAdd (keyh : Nat)
  | cmEstimate (keyh : Nat)
  | dkAllow (keyh : Nat)
  | lruGet (e : Elem)
  | slruGet (e : Elem)
  | lruAdd (it : slruItem V)
  | slruVictim
  | slruAdd (it : slruItem V)
  | println (msg : String) (v : V)
  | onEvict (v : V)
deriving DecidableEq, Repr

/-- The parts of the package that `tinylfu.go` uses without defining them: the
state types of the sketch, the doorkeeper, the two caches and the shared map, the
constructors `New` calls and the methods `Get` and `Add` call.  The two caches are
built over the one map `data`, so their methods take and return it. -/
structure Parts (V : Type) where
  /-- State of `*cm4`. -/
  CM : Type
  /-- State of `*doorkeeper`. -/
  DK : Type
  /-- State of `*lruCache` (its list). -/
  LRU : Type
  /-- State of `*slruCache` (its two lists). -/
  SLRU : Type
  /-- State of `map[string]*list.Element`. -/
  Data : Type
  /-- Go `*list.Element`. -/
  Elem : Type
  /-- Is `metro.Hash64Str(key, 0)`. -/
  hash : String → Nat
  newCM4 : Int → CM
  newDoorkeeper : Int → ℚ → DK
  newLRU : Int → LRU
  newSLRU : Int → Int → SLRU
  /-- Is `make(map[string]*list.Element, n)`. -/
  newData : Int → Data
  cmAdd : Nat → CM → CM
  cmEstimate : CM → Nat → Nat
  cmReset : CM → CM
  /-- Is `bouncer.allow(keyh)`: the answer and the new filter state. -/
  dkAllow : Nat → DK → Bool × DK
  dkReset : DK → DK
  /-- Is `t.data[key]`: `none` when `ok` is false. -/
  lookup : Data → String → Option Elem
  /-- Is `val.Value.(*slruItem)`: the item held by a list element. -/
  item : LRU → SLRU → Elem → slruItem V
  lruGet : Elem → LRU × Data → LRU × Data
  /-- Is `lru.add(newitem)`: `none` when `evicted` is false. -/
  lruAdd : slruItem V → LRU × Data → Option (slruItem V) × LRU × Data
  slruGet : Elem → SLRU × Data → SLRU × Data
  /-- Is `slru.victim()`: `none` for the nil pointer. -/
  slruVictim : SLRU → Data → Option (slruItem V)
  slruAdd : slruItem V → SLRU × Data → SLRU × Data

variable {V : Type}

/-- Go `T`. -/
structure T (P : Parts V) where
  c : P.CM
  bouncer : P.DK
  w : Int
  samples : Int
  lru : P.LRU
  slru : P.SLRU
  data : P.Data
  onEvict : V → Unit

/-! ## `New` -/

/-- The constant `lruPct` of `New`. -/
def lruPct : Int := 1

/-- The `lruSize` of `New`: `(lruPct * cfg.Size) / 100`, raised to 1. -/
def lruSize (size : Int) : Int :=
  let lruSize := Int.tdiv (lruPct * size) 100
  if lruSize < 1 then 1 else lruSize

/-- The `slruSize` of `New`: `int(float64(cfg.Size) * ((100.0 - lruPct) / 100.0))`,
raised to 1.  The constant expression is evaluated exactly and then converted to
`float64`. -/
def slruSize (size : Int) : Int :=
  let slruSize := f64ToInt (f64Mul (f64OfInt size) (f64Round ((100 - lruPct) / 100)))
  if slruSize < 1 then 1 else slruSize

/-- The `slru20` of `New`: `int(0.2 * float64(slruSize))`, raised to 1. -/
def slru20 (size : Int) : Int :=
  let slru20 := f64ToInt (f64Mul (f64Round (2 / 10)) (f64OfInt (slruSize size)))
  if slru20 < 1 then 1 else slru20

/-- Go `New`. -/
def New (P : Parts V) (cfg : Config V) : T P :=
  let onEvict : V → Unit :=
    match cfg.OnEvict with
    | none => fun _ => ()
    | some f => f
  { c := P.newCM4 cfg.Size
    w := 0
    samples := cfg.Samples
    bouncer := P.newDoorkeeper cfg.Samples (f64Round (1 / 100))
    data := P.newData cfg.Size
    lru := P.newLRU (lruSize cfg.Size)
    slru := P.newSLRU (slru20 cfg.Size) (slruSize cfg.Size - slru20 cfg.Size)
    onEvict := onEvict }

/-! ## `Get` and `Add` -/

/-- What a call of `Get` leaves behind: the two results, the new state and the
actions performed. -/
structure GetResult (P : Parts V) where
  val : Option V
  ok : Bool
  t : T P
  calls : List (Call V P.Elem)

/-- What a call of `Add` leaves behind: the new state and the actions performed. -/
structure AddResult (P : Parts V) where
  t : T P
  calls : List (Call V P.Elem)

/-- Go `(*T).Get`. -/
def T.Get {P : Parts V} (t : T P) (key : String) : GetResult P :=
  let w := wrap64 (t.w + 1)
  let aged : T P × List (Call V P.Elem) :=
    if w = t.samples then
      ({ t with c := P.cmReset t.c, bouncer := P.dkReset t.bouncer, w := 0 },
        [Call.cmReset, Call.dkReset])
    else ({ t with w := w }, [])
  let t := aged.1
  match P.lookup t.data key with
  | none =>
    let keyh := P.hash key
    { val := none, ok := false
      t := { t with c := P.cmAdd keyh t.c }
      calls := aged.2 ++ [Call.cmAdd keyh] }
  | some val =>
    let item := P.item t.lru t.slru val
    let c := P.cmAdd item.keyh t.c
    let v := item.value
    if item.listid = 0 then
      let r := P.lruGet val (t.lru, t.data)
      { val := some v, ok := true
        t := { t with c := c, lru := r.1, data := r.2 }
        calls := aged.2 ++ [Call.cmAdd item.keyh, Call.lruGet val] }
    else
      let r := P.slruGet val (t.slru, t.data)
      { val := some v, ok := true
        t := { t with c := c, slru := r.1, data := r.2 }
        calls := aged.2 ++ [Call.cmAdd item.keyh, Call.slruGet val] }

/-- Go `(*T).Add`. -/
def T.Add {P : Parts V} (t : T P) (key : String) (val : V) : AddResult P :=
  let newitem : slruItem V := ⟨0, key, val, P.hash key⟩
  let r := P.lruAdd newitem (t.lru, t.data)
  let t := { t with lru := r.2.1, data := r.2.2 }
  match r.1 with
  | none => { t := t, calls := [Call.lruAdd newitem] }
  | some oitem =>
    let out₁ := [Call.lruAdd newitem, Call.println "Add / old item -> " oitem.value,
      Call.slruVictim]
    match P.slruVictim t.slru t.data with
    | none =>
      let s := P.slruAdd oitem (t.slru, t.data)
      { t := { t with slru := s.1, data := s.2 }
        calls := out₁ ++ [Call.println "Add victim == nil / old item -> " oitem.value,
          Call.slruAdd oitem] }
    | some victim =>
      let a := P.dkAllow oitem.keyh t.bouncer
      let t := { t with bouncer := a.2 }
      let out₂ := out₁ ++ [Call.dkAllow oitem.keyh]
      if !a.1 then
        { t := t
          calls := out₂ ++ [Call.println "Add bouncer !allow / old item -> " oitem.value] }
      else
        let vcount := P.cmEstimate t.c victim.keyh
        let ocount := P.cmEstimate t.c oitem.keyh
        let out₃ := out₂ ++ [Call.cmEstimate victim.keyh, Call.cmEstimate oitem.keyh]
        if ocount < vcount then
          { t := t
            calls := out₃ ++ [Call.println "Add ocount < vcount / old item -> " oitem.value] }
        else
          let s := P.slruAdd oitem (t.slru, t.data)
          { t := { t with slru := s.1, data := s.2 }
            calls := out₃ ++ [Call.println "Add final slru.add / old item -> " oitem.value,
              Call.slruAdd oitem] }

/-- The actions of the aging step that opens `Get`: the two resets when the
incremented sample counter equals the threshold, nothing otherwise. -/
def agingCalls {P : Parts V} (t : T P) : List (Call V P.Elem) :=
  if wrap64 (t.w + 1) = t.samples then [Call.cmReset, Call.dkReset] else []

/-- The sketch after the aging step that opens `Get`. -/
def agedSketch {P : Parts V} (t : T P) : P.CM :=
  if wrap64 (t.w + 1) = t.samples then P.cmReset t.c else t.c

/-- The lines written to standard output by a list of actions: the text and the
value of every `fmt.Println`, in order. -/
def printed {E : Type} : List (Call V E) → List (String × V)
  | [] => []
  | Call.println msg v :: cs => (msg, v) :: printed cs
  | _ :: cs => printed cs

/-- The number of calls of `bouncer.allow` in a list of actions. -/
def allowCount {E : Type} : List (Call V E) → Nat
  | [] => 0
  | Call.dkAllow _ :: cs => allowCount cs + 1
  | _ :: cs => allowCount cs

/-! ## Runs of `Get` and `Add` -/

/-- One call on the cache. -/
inductive Op (V : Type) where
  | get (key : String)
  | add (key : String) (val : V)
deriving DecidableEq, Repr

/-- The state after one call. -/
def T.step {P : Parts V} (t : T P) : Op V → T P
  | Op.get key => (t.Get key).t
  | Op.add key val => (t.Add key val).t

/-- The state after a sequence of calls, oldest first. -/
def T.run {P : Parts V} (t : T P) (ops : List (Op V)) : T P := ops.foldl T.step t

/-- The number of `Get` calls in a sequence of calls. -/
def getCount : List (Op V) → Nat
  | [] => 0
  | Op.get _ :: ops => getCount ops + 1
  | Op.add _ _ :: ops => getCount ops

/-! ## The parts, modelled from the spec

`cm4`, `doorkeeper`, `lruCache` and `slruCache` are used by `tinylfu.go` and defined
elsewhere in the package.  The definitions below follow sections 4.1 to 4.4 of the
specification and give one concrete `Parts`, on which states are evaluated. -/

namespace Model

/-- Modelled from the spec: the Frequency Sketch state of `cm4`, a fixed matrix of
`d` rows of `w` four-bit counters (section 4.1). -/
structure Sketch where
  w : Nat
  rows : List (List Nat)
deriving DecidableEq, Repr

/-- Modelled from the spec: the column a fingerprint hashes to in row `i` of the
sketch of `cm4`.  The spec leaves the row hashes open; row `i` reads the `i`-th digit
of the fingerprint in base `w`. -/
def Sketch.col (c : Sketch) (i keyh : Nat) : Nat := keyh / c.w ^ i % c.w

/-- Modelled from the spec: the counters of a fingerprint, one per row (`cm4`). -/
def Sketch.counters (c : Sketch) (keyh : Nat) : List Nat :=
  List.zipWith (fun i row => row.getD (c.col i keyh) 0) (List.range c.rows.length) c.rows

/-- Modelled from the spec: `cm4.estimate`, the minimum counter across the rows, a
count in `[0, 15]`. -/
def Sketch.estimate (c : Sketch) (keyh : Nat) : Nat := (c.counters keyh).foldl min 15

/-- Modelled from the spec: `cm4.add`, conservative update: only the counters tied
for the minimum are incremented, and increments saturate at 15. -/
def Sketch.add (keyh : Nat) (c : Sketch) : Sketch :=
  let m := c.estimate keyh
  { c with
    rows := List.zipWith
      (fun i row => if row.getD (c.col i keyh) 0 = m ∧ m < 15
        then row.set (c.col i keyh) (m + 1) else row)
      (List.range c.rows.length) c.rows }

/-- Modelled from the spec: `cm4.reset`, every counter is halved in place. -/
def Sketch.reset (c : Sketch) : Sketch :=
  { c with rows := c.rows.map (fun row => row.map (fun x => x / 2)) }

/-- Modelled from the spec: `newCM4`, four rows of zeroed counters, at least one
column. -/
def Sketch.new (size : Int) : Sketch :=
  let w := max 1 size.toNat
  { w := w, rows := List.replicate 4 (List.replicate w 0) }

/-- Modelled from the spec: the Admission Filter state of `doorkeeper`, the set of
fingerprints seen since the last reset (section 4.2), kept exactly. -/
structure Filter where
  seen : List Nat
deriving DecidableEq, Repr

/-- Modelled from the spec: `doorkeeper.allow`: the first call for a fingerprint
inserts it and answers false, every later call before the next reset answers true. -/
def Filter.allow (keyh : Nat) (f : Filter) : Bool × Filter :=
  if keyh ∈ f.seen then (true, f) else (false, { seen := keyh :: f.seen })

/-- Modelled from the spec: `doorkeeper.reset` clears the filter entirely. -/
def Filter.reset (_ : Filter) : Filter := { seen := [] }

/-- Modelled from the spec: the Shared Index `data`, key to list element, with the
counter that names the next list element. -/
structure Index where
  next : Nat
  m : List (String × Nat)
deriving DecidableEq, Repr

/-- Modelled from the spec: lookup of a key in the Shared Index. -/
def Index.find (d : Index) (key : String) : Option Nat := (d.m.lookup key)

/-- Modelled from the spec: registration of a key in the Shared Index under a fresh
list element. -/
def Index.register (d : Index) (key : String) : Index :=
  { next := d.next + 1, m := (key, d.next) :: d.m.filter (fun p => p.1 != key) }

/-- Modelled from the spec: deregistration of a key from the Shared Index. -/
def Index.deregister (d : Index) (key : String) : Index :=
  { d with m := d.m.filter (fun p => p.1 != key) }

/-- Modelled from the spec: a recency list of `lruCache` or `slruCache`, most
recently used first, of list elements with the entry each holds. -/
abbrev Nodes (V : Type) := List (Nat × slruItem V)

/-- Modelled from the spec: a recency list with one element moved to the most
recently used position. -/
def moveToFront (e : Nat) (ll : Nodes V) : Nodes V :=
  ll.filter (fun n => n.1 == e) ++ ll.filter (fun n => n.1 != e)

/-- Modelled from the spec: the Window Cache `lruCache`, a bounded recency list
(section 4.3). -/
structure Window (V : Type) where
  cap : Int
  ll : Nodes V
deriving DecidableEq, Repr

/-- Modelled from the spec: `lruCache.get` moves the entry to the most recently
used position. -/
def Window.get (e : Nat) (s : Window V × Index) : Window V × Index :=
  ({ s.1 with ll := moveToFront e s.1.ll }, s.2)

/-- Modelled from the spec: `lruCache.add` inserts the new entry at the most
recently used position; if the list now exceeds capacity it removes and returns the
least recently used entry. -/
def Window.add (it : slruItem V) (s : Window V × Index) :
    Option (slruItem V) × Window V × Index :=
  let ll := (s.2.next, it) :: s.1.ll
  let d := s.2.register it.key
  if s.1.cap < ll.length then
    match ll.getLast? with
    | none => (none, { s.1 with ll := ll }, d)
    | some last => (some last.2, { s.1 with ll := ll.dropLast }, d.deregister last.2.key)
  else (none, { s.1 with ll := ll }, d)

/-- Modelled from the spec: the Main Cache `slruCache`, the Probation and Protected
recency lists with their capacities (section 4.4). -/
structure Main (V : Type) where
  protCap : Int
  probCap : Int
  probation : Nodes V
  prot : Nodes V
deriving DecidableEq, Repr

/-- Modelled from the spec: an entry with its segment tag replaced. -/
def retag (id : Int) (n : Nat × slruItem V) : Nat × slruItem V :=
  (n.1, { n.2 with listid := id })

/-- Modelled from the spec: `slruCache.get`.  A Protected entry moves to Protected's
most recently used position.  A Probation entry is promoted to that position; if
Protected is then over capacity its least recently used entry is demoted to
Probation's most recently used position. -/
def Main.get (e : Nat) (s : Main V × Index) : Main V × Index :=
  let m := s.1
  if m.prot.any (fun n => n.1 == e) then
    ({ m with prot := moveToFront e m.prot }, s.2)
  else
    let hit := (m.probation.filter (fun n => n.1 == e)).map (retag 2)
    let probation := m.probation.filter (fun n => n.1 != e)
    let prot := hit ++ m.prot
    if m.protCap < prot.length then
      match prot.getLast? with
      | none => ({ m with probation := probation, prot := prot }, s.2)
      | some last =>
        ({ m with probation := retag 1 last :: probation, prot := prot.dropLast },
          s.2)
    else ({ m with probation := probation, prot := prot }, s.2)

/-- Modelled from the spec: `slruCache.add` inserts the candidate at Probation's
most recently used position, tagged Probation; if Probation then exceeds capacity
its least recently used entry is removed for good and deregistered. -/
def Main.add (it : slruItem V) (s : Main V × Index) : Main V × Index :=
  let m := s.1
  let probation := (s.2.next, { it with listid := 1 }) :: m.probation
  let d := s.2.register it.key
  if m.probCap < probation.length then
    match probation.getLast? with
    | none => ({ m with probation := probation }, d)
    | some last => ({ m with probation := probation.dropLast }, d.deregister last.2.key)
  else ({ m with probation := probation }, d)

/-- Modelled from the spec: `slruCache.victim`, the least recently used entry of
Probation, not removed; none while the Main Cache has not reached capacity. -/
def Main.victim (m : Main V) (_ : Index) : Option (slruItem V) :=
  if (m.probation.length + m.prot.length : Int) < m.probCap + m.protCap
  then none
  else m.probation.getLast?.map (fun n => n.2)

/-- Modelled from the spec: the entry a list element holds (`slruItem`), looked up
in the three lists. -/
def itemOf [Inhabited V] (l : Window V) (m : Main V) (e : Nat) : slruItem V :=
  match (l.ll ++ m.probation ++ m.prot).lookup e with
  | some it => it
  | none => ⟨0, "", default, 0⟩

/-- Modelled from the spec: the key fingerprint, a pluggable 64-bit hash standing for
`metro.Hash64Str(key, 0)`. -/
def hash64 (key : String) : Nat :=
  key.data.foldl (fun h ch => (h * 31 + ch.toNat) % 2 ^ 64) 7

/-- Modelled from the spec: the parts of the package, assembled from the models of
`cm4`, `doorkeeper`, `lruCache` and `slruCache`.  Protected takes the first capacity
of `newSLRU` (20% of Main), Probation the second. -/
def parts (V : Type) [Inhabited V] : Parts V where
  CM := Sketch
  DK := Filter
  LRU := Window V
  SLRU := Main V
  Data := Index
  Elem := Nat
  hash := hash64
  newCM4 := Sketch.new
  newDoorkeeper := fun _ _ => { seen := [] }
  newLRU := fun cap => { cap := cap, ll := [] }
  newSLRU := fun a b => { protCap := a, probCap := b, probation := [], prot := [] }
  newData := fun _ => { next := 0, m := [] }
  cmAdd := Sketch.add
  cmEstimate := Sketch.estimate
  cmReset := Sketch.reset
  dkAllow := Filter.allow
  dkReset := Filter.reset
  lookup := Index.find
  item := itemOf
  lruGet := Window.get
  lruAdd := Window.add
  slruGet := Main.get
  slruVictim := Main.victim
  slruAdd := Main.add

/-- A cache over `parts` with the given capacities (Window, Protected, Probation) and
sample threshold: the state `New` builds, with the capacities written out. -/
def fresh (lru prot prob samples : Int) : T (parts String) where
  c := Sketch.new (lru + prot + prob)
  bouncer := { seen := [] }
  w := 0
  samples := samples
  lru := { cap := lru, ll := [] }
  slru := { protCap := prot, probCap := prob, probation := [], prot := [] }
  data := { next := 0, m := [] }
  onEvict := fun _ => ()

/-- The cache with every segment of capacity one, after `a` and `b` were added, `a`
was read (and so promoted to Protected) and `c` was added: Window holds `c`,
Probation holds `b`, Protected holds `a`; the Main Cache is full. -/
def demoFull : T (parts String) :=
  (fresh 1 1 1 10).run [Op.add "a" "1", Op.add "b" "2", Op.get "a", Op.add "c" "3"]

/-- The cache `demoFull` after `d` and then `c` were added: both additions evicted a
candidate that the filter had not seen, so the filter now holds the fingerprints of
`c` and `d`; Window holds `c` again. -/
def demoSeen : T (parts String) := demoFull.run [Op.add "d" "4", Op.add "c" "5"]

/-- The cache with every segment of capacity one, after `a` was added: the key `a`
is in the Shared Index and its entry is in the Window. -/
def demoOne : T (parts String) := (fresh 1 1 1 10).run [Op.add "a" "1"]

/-- The identity of a list element: its name, and the key and fingerprint of the
entry it holds. -/
def sig (n : Nat × slruItem V) : Nat × String × Nat := (n.1, n.2.key, n.2.keyh)

/-- Consistency of list elements with the Shared Index: every entry carries the hash
of its key and an element name already handed out, elements of one name hold one key,
and every pair of the index names an element that holds the pair's key. -/
def Consistent (nodes : Nodes V) (d : Index) : Prop :=
  (∀ n ∈ nodes, n.2.keyh = hash64 n.2.key ∧ n.1 < d.next) ∧
  (∀ n ∈ nodes, ∀ n' ∈ nodes, n.1 = n'.1 → n.2.key = n'.2.key) ∧
  (∀ p ∈ d.m, ∃ n ∈ nodes, n.1 = p.2 ∧ n.2.key = p.1)

/-- The list elements of the three lists of a cache over `parts`. -/
def allNodes [Inhabited V] (t : T (parts V)) : Nodes V :=
  t.lru.ll ++ t.slru.probation ++ t.slru.prot

/-- The names of the list elements of a recency list. -/
def ids (l : Nodes V) : List Nat := l.map Prod.fst

/-- The Main Cache within its bounds: Probation and Protected are within their
capacities, Protected is empty while Probation has no room, and the elements of the
two lists have distinct names. -/
def Main.Within (m : Main V) : Prop :=
  (m.probation.length : Int) ≤ m.probCap ∧ (m.prot.length : Int) ≤ m.protCap ∧
    (m.probCap ≤ 0 → m.prot = []) ∧ (ids (m.probation ++ m.prot)).Nodup

/-- A cache over `parts` within its bounds: the capacities are `a` (Window), `b`
(Protected) and `c` (Probation), the Window is within its capacity and so is the Main
Cache. -/
def Bounded [Inhabited V] (a b c : Int) (t : T (parts V)) : Prop :=
  t.lru.cap = a ∧ t.slru.protCap = b ∧ t.slru.probCap = c ∧
    (t.lru.ll.length : Int) ≤ a ∧ Main.Within t.slru

end Model

/-! ## Rounding to binary64 -/

theorem roundEven_ge (k : Int) (y : ℚ) (h : (k : ℚ) - 1 / 2 < y) : k ≤ roundEven y := by
  unfold roundEven
  have hf : k - 1 ≤ ⌊y⌋ := by
    rw [Int.le_floor]; push_cast; linarith
  have hfl : (⌊y⌋ : ℚ) ≤ y := Int.floor_le y
  simp only []
  split_ifs with h1 h2 h3
  · -- y - ⌊y⌋ < 1/2, so ⌊y⌋ > k - 1
    by_contra hc
    have : ⌊y⌋ = k - 1 := by omega
    rw [this] at h1; push_cast at h1; linarith
  · omega
  · by_contra hc
    have : ⌊y⌋ = k - 1 := by omega
    rw [this] at h1 h2; push_cast at h1 h2; linarith
  · omega

theorem roundEven_le (k : Int) (y : ℚ) (h : y < (k : ℚ) + 1 / 2) : roundEven y ≤ k := by
  unfold roundEven
  have hf : ⌊y⌋ ≤ k := by
    have : ⌊y⌋ < k + 1 := by
      rw [Int.floor_lt]; push_cast; linarith
    omega
  have hfl : y < (⌊y⌋ : ℚ) + 1 := Int.lt_floor_add_one y
  simp only []
  split_ifs with h1 h2 h3
  · exact hf
  · by_contra hc
    have : ⌊y⌋ = k := by omega
    rw [this] at h2; linarith
  · exact hf
  · by_contra hc
    have : ⌊y⌋ = k := by omega
    rw [this] at h1 h2; linarith

theorem f64Ulp_pos (x : ℚ) : 0 < f64Ulp x := by
  unfold f64Ulp; positivity

theorem f64Round_nonpos (x : ℚ) (h : x ≤ 0) : f64Round x ≤ 0 := by
  unfold f64Round
  have hu := f64Ulp_pos x
  have : roundEven (x / f64Ulp x) ≤ 0 := by
    apply roundEven_le
    have : x / f64Ulp x ≤ 0 := div_nonpos_of_nonpos_of_nonneg h hu.le
    push_cast; linarith
  have h2 : (roundEven (x / f64Ulp x) : ℚ) ≤ 0 := by exact_mod_cast this
  exact mul_nonpos_of_nonpos_of_nonneg h2 hu.le

theorem f64Ulp_spec (x : ℚ) (h0 : 0 < x) (h1 : x < 2 ^ 46) :
    ∃ n : ℕ, 7 ≤ n ∧ f64Ulp x = 1 / 2 ^ n ∧ x < 2 ^ 53 * f64Ulp x := by
  have hlog : Int.log 2 |x| < 46 := by
    rw [← Int.lt_zpow_iff_log_lt (by norm_num) (by positivity)]
    rw [abs_of_pos h0]; exact_mod_cast h1
  have he : f64Exp x ≤ 45 := by
    unfold f64Exp; omega
  have he2 : Int.log 2 |x| ≤ f64Exp x := le_max_left _ _
  refine ⟨(52 - f64Exp x).toNat, by omega, ?_, ?_⟩
  · unfold f64Ulp
    have : f64Exp x - 52 = -(((52 - f64Exp x).toNat : ℕ) : ℤ) := by
      rw [Int.toNat_of_nonneg (by omega)]; ring
    rw [this, zpow_neg, zpow_natCast]; simp
  · have hx : x < (2 : ℚ) ^ (Int.log 2 |x| + 1) := by
      have := Int.lt_zpow_succ_log_self (R := ℚ) (b := 2) (by norm_num) |x|
      rw [abs_of_pos h0] at this ⊢; exact_mod_cast this
    have hmono : (2 : ℚ) ^ (Int.log 2 |x| + 1) ≤ (2 : ℚ) ^ (f64Exp x + 1) :=
      zpow_le_zpow_right₀ (by norm_num) (by omega)
    have : (2 : ℚ) ^ 53 * f64Ulp x = (2 : ℚ) ^ (f64Exp x + 1) := by
      unfold f64Ulp
      rw [show f64Exp x + 1 = 53 + (f64Exp x - 52) by ring, zpow_add₀ (by norm_num)]
      norm_num
    rw [this]; exact lt_of_lt_of_le hx hmono

theorem f64Round_floor (x : ℚ) (q : Int) (h0 : 0 < x) (h1 : x < 2 ^ 46)
    (hlo : (q : ℚ) - x / 2 ^ 54 ≤ x) (hhi : x ≤ (q : ℚ) + 1 - 1 / 128) :
    ⌊f64Round x⌋ = q := by
  obtain ⟨n, hn, hu, hx⟩ := f64Ulp_spec x h0 h1
  have hpow : (0 : ℚ) < 2 ^ n := by positivity
  have hpow7 : (128 : ℚ) ≤ 2 ^ n := by
    calc (128 : ℚ) = 2 ^ 7 := by norm_num
      _ ≤ 2 ^ n := pow_le_pow_right₀ (by norm_num) hn
  have hy : x / f64Ulp x = x * 2 ^ n := by rw [hu]; field_simp
  have hux : x < 2 ^ 53 * (1 / 2 ^ n) := by rw [← hu]; exact hx
  have hxn : x * 2 ^ n < 2 ^ 53 := by
    have := mul_lt_mul_of_pos_right hux hpow
    rwa [mul_assoc, one_div, inv_mul_cancel₀ hpow.ne', mul_one] at this
  have hge : q * 2 ^ n ≤ roundEven (x * 2 ^ n) := by
    apply roundEven_ge
    push_cast
    have : ((q : ℚ) - x / 2 ^ 54) * 2 ^ n ≤ x * 2 ^ n :=
      mul_le_mul_of_nonneg_right hlo hpow.le
    have h54 : x / 2 ^ 54 * 2 ^ n < 1 / 2 := by
      have : x / 2 ^ 54 * 2 ^ n = x * 2 ^ n / 2 ^ 54 := by ring
      rw [this, div_lt_iff₀ (by positivity)]
      calc x * 2 ^ n < 2 ^ 53 := hxn
        _ = 1 / 2 * 2 ^ 54 := by norm_num
    nlinarith
  have hle : roundEven (x * 2 ^ n) ≤ (q + 1) * 2 ^ n - 1 := by
    apply roundEven_le
    push_cast
    have : x * 2 ^ n ≤ ((q : ℚ) + 1 - 1 / 128) * 2 ^ n :=
      mul_le_mul_of_nonneg_right hhi hpow.le
    nlinarith
  unfold f64Round
  rw [hy, hu, Int.floor_eq_iff]
  have hge' : ((q * 2 ^ n : Int) : ℚ) ≤ (roundEven (x * 2 ^ n) : ℚ) := by exact_mod_cast hge
  have hle' : (roundEven (x * 2 ^ n) : ℚ) ≤ (((q + 1) * 2 ^ n - 1 : Int) : ℚ) := by
    exact_mod_cast hle
  push_cast at hge' hle'
  constructor
  · rw [mul_one_div, le_div_iff₀ hpow]; exact hge'
  · rw [mul_one_div, div_lt_iff₀ hpow]; linarith

theorem roundEven_intCast (k : Int) : roundEven (k : ℚ) = k :=
  le_antisymm (roundEven_le k _ (by linarith)) (roundEven_ge k _ (by linarith))

theorem f64Round_zero : f64Round 0 = 0 := by
  unfold f64Round
  rw [zero_div]
  have := roundEven_intCast 0
  simp only [Int.cast_zero] at this
  rw [this]; simp

theorem f64OfInt_eq (n : Int) (h0 : 0 ≤ n) (h1 : n < 2 ^ 46) : f64OfInt n = n := by
  unfold f64OfInt
  rcases h0.eq_or_lt with h | h
  · subst h; simpa using f64Round_zero
  have hq0 : (0 : ℚ) < n := by exact_mod_cast h
  have hq1 : (n : ℚ) < 2 ^ 46 := by exact_mod_cast h1
  obtain ⟨k, _, hu, _⟩ := f64Ulp_spec n hq0 hq1
  have hpow : (0 : ℚ) < 2 ^ k := by positivity
  unfold f64Round
  rw [hu]
  have : (n : ℚ) / (1 / 2 ^ k) = ((n * 2 ^ k : Int) : ℚ) := by
    push_cast; field_simp
  rw [this, roundEven_intCast]
  push_cast; field_simp


theorem f64Exp_eq (x : ℚ) (e : Int) (he : -1022 ≤ e) (h0 : (2 : ℚ) ^ e ≤ x)
    (h1 : x < (2 : ℚ) ^ (e + 1)) : f64Exp x = e := by
  have hx : 0 < x := lt_of_lt_of_le (by positivity) h0
  unfold f64Exp
  rw [abs_of_pos hx]
  have ha : e ≤ Int.log 2 x := by
    rw [← Int.zpow_le_iff_le_log (by norm_num) hx]; exact_mod_cast h0
  have hb : Int.log 2 x < e + 1 := by
    rw [← Int.lt_zpow_iff_log_lt (by norm_num) hx]; exact_mod_cast h1
  omega

theorem f64Round_eq (x : ℚ) (e k : Int) (he : -1022 ≤ e) (h0 : (2 : ℚ) ^ e ≤ x)
    (h1 : x < (2 : ℚ) ^ (e + 1)) (hlo : (k : ℚ) - 1 / 2 < x / 2 ^ (e - 52))
    (hhi : x / 2 ^ (e - 52) < (k : ℚ) + 1 / 2) : f64Round x = k * 2 ^ (e - 52) := by
  unfold f64Round f64Ulp
  rw [f64Exp_eq x e he h0 h1]
  rw [le_antisymm (roundEven_le k _ hhi) (roundEven_ge k _ hlo)]

theorem f64Round_99 : f64Round (99 / 100) = 8917127262193582 / 2 ^ 53 := by
  have := f64Round_eq (99 / 100) (-1) 8917127262193582 (by norm_num) (by norm_num)
    (by norm_num) (by norm_num) (by norm_num)
  rw [this]; norm_num

theorem f64Round_02 : f64Round (2 / 10) = 7205759403792794 / 2 ^ 55 := by
  have := f64Round_eq (2 / 10) (-3) 7205759403792794 (by norm_num) (by norm_num)
    (by norm_num) (by norm_num) (by norm_num)
  rw [this]; norm_num

theorem slruSize_raw (s : Int) (h0 : 0 ≤ s) (h1 : s < 2 ^ 46) :
    f64ToInt (f64Mul (f64OfInt s) (f64Round ((100 - lruPct) / 100))) = 99 * s / 100 := by
  have hc : (((100 : ℚ) - (lruPct : ℚ)) / 100) = 99 / 100 := by norm_num [lruPct]
  rw [hc, f64Round_99, f64OfInt_eq s h0 h1]
  unfold f64Mul f64ToInt
  rcases h0.eq_or_lt with h | h
  · subst h; simp [f64Round_zero]
  have hs0 : (0 : ℚ) < s := by exact_mod_cast h
  have hs1 : (s : ℚ) < 2 ^ 46 := by exact_mod_cast h1
  have hq1 : ((99 * s / 100 : Int) : ℚ) * 100 ≤ 99 * s := by
    have := Int.ediv_mul_le (99 * s) (show (100 : Int) ≠ 0 by norm_num)
    exact_mod_cast this
  have hq2 : (99 * s : ℚ) < ((99 * s / 100 : Int) : ℚ) * 100 + 100 := by
    have := Int.lt_ediv_add_one_mul_self (99 * s) (show (0 : Int) < 100 by norm_num)
    have h' : 99 * s < (99 * s / 100) * 100 + 100 := by linarith
    exact_mod_cast h'
  have hq3 : (99 * s : ℚ) ≤ ((99 * s / 100 : Int) : ℚ) * 100 + 99 := by
    have := Int.lt_ediv_add_one_mul_self (99 * s) (show (0 : Int) < 100 by norm_num)
    have h' : 99 * s ≤ (99 * s / 100) * 100 + 99 := by omega
    exact_mod_cast h'
  have hfl : ⌊f64Round ((s : ℚ) * (8917127262193582 / 2 ^ 53))⌋ = 99 * s / 100 := by
    apply f64Round_floor
    · positivity
    · norm_num at hs1 ⊢; linarith
    · norm_num at hq1 ⊢; linarith
    · norm_num at hq3 ⊢; linarith
  have hnn : 0 ≤ f64Round ((s : ℚ) * (8917127262193582 / 2 ^ 53)) := by
    have h99 : (0 : Int) ≤ 99 * s / 100 := Int.ediv_nonneg (by omega) (by norm_num)
    rw [← hfl] at h99
    have := Int.floor_le (f64Round ((s : ℚ) * (8917127262193582 / 2 ^ 53)))
    have h' : (0 : ℚ) ≤ (⌊f64Round ((s : ℚ) * (8917127262193582 / 2 ^ 53))⌋ : ℚ) := by
      exact_mod_cast h99
    linarith
  rw [if_pos hnn, hfl]

theorem f64ToInt_nonpos (f : ℚ) (h : f ≤ 0) : f64ToInt f ≤ 0 := by
  unfold f64ToInt
  split_ifs with h0
  · have : f = 0 := le_antisymm h h0
    subst this; simp
  · exact Int.ceil_le.mpr (by exact_mod_cast h)

theorem slruSize_of_nonpos (s : Int) (h : s ≤ 0) : slruSize s = 1 := by
  have hc : (((100 : ℚ) - (lruPct : ℚ)) / 100) = 99 / 100 := by norm_num [lruPct]
  have h1 : f64OfInt s ≤ 0 := f64Round_nonpos _ (by exact_mod_cast h)
  have h2 : f64Mul (f64OfInt s) (f64Round ((100 - lruPct) / 100)) ≤ 0 := by
    rw [hc, f64Round_99]
    apply f64Round_nonpos
    exact mul_nonpos_of_nonpos_of_nonneg h1 (by norm_num)
  have h3 := f64ToInt_nonpos _ h2
  unfold slruSize
  simp only []
  rw [if_pos (by omega)]

theorem slruSize_eq (s : Int) (h0 : 0 ≤ s) (h1 : s < 2 ^ 46) :
    slruSize s = max 1 (99 * s / 100) := by
  unfold slruSize
  simp only []
  rw [slruSize_raw s h0 h1]
  split_ifs with h <;> omega

theorem slru20_raw (m : Int) (h0 : 0 ≤ m) (h1 : m < 2 ^ 46) :
    f64ToInt (f64Mul (f64Round (2 / 10)) (f64OfInt m)) = m / 5 := by
  rw [f64Round_02, f64OfInt_eq m h0 h1]
  unfold f64Mul f64ToInt
  rcases h0.eq_or_lt with h | h
  · subst h; simp [f64Round_zero]
  have hs0 : (0 : ℚ) < m := by exact_mod_cast h
  have hs1 : (m : ℚ) < 2 ^ 46 := by exact_mod_cast h1
  have hq1 : ((m / 5 : Int) : ℚ) * 5 ≤ m := by
    have := Int.ediv_mul_le m (show (5 : Int) ≠ 0 by norm_num)
    exact_mod_cast this
  have hq3 : (m : ℚ) ≤ ((m / 5 : Int) : ℚ) * 5 + 4 := by
    have := Int.lt_ediv_add_one_mul_self m (show (0 : Int) < 5 by norm_num)
    have h' : m ≤ (m / 5) * 5 + 4 := by omega
    exact_mod_cast h'
  have hfl : ⌊f64Round ((7205759403792794 / 2 ^ 55) * (m : ℚ))⌋ = m / 5 := by
    apply f64Round_floor
    · positivity
    · norm_num at hs1 ⊢; linarith
    · norm_num at hq1 ⊢; linarith
    · norm_num at hq3 hs1 ⊢; linarith
  have hnn : 0 ≤ f64Round ((7205759403792794 / 2 ^ 55) * (m : ℚ)) := by
    have h5 : (0 : Int) ≤ m / 5 := Int.ediv_nonneg (by omega) (by norm_num)
    rw [← hfl] at h5
    have := Int.floor_le (f64Round ((7205759403792794 / 2 ^ 55) * (m : ℚ)))
    have h' : (0 : ℚ) ≤ (⌊f64Round ((7205759403792794 / 2 ^ 55) * (m : ℚ))⌋ : ℚ) := by
      exact_mod_cast h5
    linarith
  rw [if_pos hnn, hfl]

theorem slruSize_bounds (s : Int) (h1 : s < 2 ^ 46) : 1 ≤ slruSize s ∧ slruSize s < 2 ^ 46 := by
  rcases le_or_lt s 0 with h | h
  · rw [slruSize_of_nonpos s h]; norm_num
  · rw [slruSize_eq s h.le h1]; omega

theorem slru20_eq (s : Int) (h1 : s < 2 ^ 46) : slru20 s = max 1 (slruSize s / 5) := by
  obtain ⟨ha, hb⟩ := slruSize_bounds s h1
  unfold slru20
  simp only []
  rw [slru20_raw _ (by omega) hb]
  split_ifs with h <;> omega

theorem lruSize_eq (s : Int) (h0 : 0 ≤ s) : lruSize s = max 1 (s / 100) := by
  unfold lruSize lruPct
  simp only [one_mul]
  rw [Int.tdiv_eq_ediv h0 (by norm_num)]
  split_ifs with h <;> omega

/-! ## The capacities computed by `New` -/

theorem lruSize_pos (s : Int) : 1 ≤ lruSize s := by
  unfold lruSize
  simp only []
  split_ifs with h <;> omega

theorem slru20_pos (s : Int) : 1 ≤ slru20 s := by
  unfold slru20
  simp only []
  split_ifs with h <;> omega

/-- C2 (as stated, refuted): at `Size = 1` both floors apply, the Window capacity and
the Main capacity are 1 each, and their sum 2 exceeds `Size`. -/
theorem capacity_bound_fails_at_one : (1 : Int) ≤ 1 ∧ ¬ (lruSize 1 + slruSize 1 ≤ 1) := by
  rw [lruSize_eq 1 (by norm_num), slruSize_eq 1 (by norm_num) (by norm_num)]
  decide

/-- C9 (as stated, refuted): at `Size = 150` the Main capacity is 148, one less than
`Size - lruSize = 149`; at `Size = 1` it is 1 and not `Size - lruSize = 0`. -/
theorem main_capacity_fails :
    slruSize 150 ≠ 150 - lruSize 150 ∧ slruSize 1 ≠ 1 - lruSize 1 := by
  rw [lruSize_eq 150 (by norm_num), slruSize_eq 150 (by norm_num) (by norm_num),
    lruSize_eq 1 (by norm_num), slruSize_eq 1 (by norm_num) (by norm_num)]
  decide

/-- C9 (amended): for every `Size` from 2 up to `2 ^ 46`, the Main capacity is
`max(1, floor(99 * Size / 100))`; it is `Size - lruSize` or one less, and it equals
`Size - lruSize` exactly when `Size <= 100` or `Size` is a multiple of 100. -/
theorem main_capacity (s : Int) (h2 : 2 ≤ s) (h46 : s < 2 ^ 46) :
    slruSize s = max 1 (99 * s / 100) ∧
      slruSize s ≤ s - lruSize s ∧ s - lruSize s ≤ slruSize s + 1 ∧
      (slruSize s = s - lruSize s ↔ (s ≤ 100 ∨ 100 ∣ s)) := by
  rw [lruSize_eq s (by omega), slruSize_eq s (by omega) h46]
  refine ⟨rfl, ?_, ?_, ?_⟩ <;> omega

theorem main_capacity_witness :
    slruSize 250 = max 1 (99 * 250 / 100) ∧
      slruSize 250 ≤ 250 - lruSize 250 ∧ 250 - lruSize 250 ≤ slruSize 250 + 1 ∧
      (slruSize 250 = 250 - lruSize 250 ↔ ((250 : Int) ≤ 100 ∨ (100 : Int) ∣ 250)) :=
  main_capacity 250 (by decide) (by decide)

/-- C10 (the code at the failing input `Size = 1`): `New` computes `lruSize = 1`,
`slru20 = 1` and `slruSize - slru20 = 0`, so the second capacity handed to `newSLRU`
is zero; the same three values come out of `Size = 0`, `Size = 2` and `Size = -5`. -/
theorem segment_floor_fails_at_one :
    (lruSize 1 = 1 ∧ slru20 1 = 1 ∧ slruSize 1 - slru20 1 = 0) ∧
      slruSize 0 - slru20 0 = 0 ∧ slruSize 2 - slru20 2 = 0 ∧
      slruSize (-5) - slru20 (-5) = 0 := by
  rw [slru20_eq 1 (by norm_num), slru20_eq 0 (by norm_num), slru20_eq 2 (by norm_num),
    slru20_eq (-5) (by norm_num), lruSize_eq 1 (by norm_num),
    slruSize_eq 1 (by norm_num) (by norm_num), slruSize_eq 0 (by norm_num) (by norm_num),
    slruSize_eq 2 (by norm_num) (by norm_num), slruSize_of_nonpos (-5) (by norm_num)]
  decide

/-- The floors that `New` does apply: `lruSize` and `slru20` are at least 1 for every
`Size`, and the remaining Main segment `slruSize - slru20` is at least 1 from
`Size = 3` on (below `2 ^ 46`). -/
theorem segment_floor_from_three (s : Int) :
    1 ≤ lruSize s ∧ 1 ≤ slru20 s ∧ (3 ≤ s → s < 2 ^ 46 → 1 ≤ slruSize s - slru20 s) := by
  refine ⟨lruSize_pos s, slru20_pos s, fun h3 h46 => ?_⟩
  rw [slru20_eq s h46, slruSize_eq s (by omega) h46]
  omega


set_option maxRecDepth 100000

open Model

/-! ## `Add` -/

theorem Add_never_onEvict {P : Parts V} (t : T P) (key : String) (val v : V) :
    Call.onEvict v ∉ (t.Add key val).calls := by
  unfold T.Add
  simp only []
  split
  · simp
  · split
    · simp
    · split_ifs <;> simp

/-- C1: when the Window evicts a candidate and the Main Cache reports a victim, `Add`
calls the Main Cache `add` with the candidate exactly when the filter allows the
candidate's fingerprint and the candidate's estimate is at least the victim's; the
Main Cache state then is the result of that `add`, and otherwise it is untouched.  In
particular a tie with the filter's consent admits the candidate. -/
theorem admission_contest {P : Parts V} (t : T P) (key : String) (val : V)
    (oitem victim : slruItem V) (l : P.LRU) (d : P.Data)
    (hadd : P.lruAdd ⟨0, key, val, P.hash key⟩ (t.lru, t.data) = (some oitem, l, d))
    (hvictim : P.slruVictim t.slru d = some victim) :
    (Call.slruAdd oitem ∈ (t.Add key val).calls ↔
        ((P.dkAllow oitem.keyh t.bouncer).1 = true ∧
          P.cmEstimate t.c victim.keyh ≤ P.cmEstimate t.c oitem.keyh)) ∧
      ((P.dkAllow oitem.keyh t.bouncer).1 = true ∧
          P.cmEstimate t.c victim.keyh ≤ P.cmEstimate t.c oitem.keyh →
        ((t.Add key val).t.slru, (t.Add key val).t.data) = P.slruAdd oitem (t.slru, d)) ∧
      (¬ ((P.dkAllow oitem.keyh t.bouncer).1 = true ∧
          P.cmEstimate t.c victim.keyh ≤ P.cmEstimate t.c oitem.keyh) →
        (t.Add key val).t.slru = t.slru ∧ (t.Add key val).t.data = d) ∧
      ((P.dkAllow oitem.keyh t.bouncer).1 = true →
        P.cmEstimate t.c oitem.keyh = P.cmEstimate t.c victim.keyh →
        Call.slruAdd oitem ∈ (t.Add key val).calls) := by
  unfold T.Add
  simp only [hadd, hvictim]
  cases hal : (P.dkAllow oitem.keyh t.bouncer).1
  · simp
  · by_cases hc : P.cmEstimate t.c oitem.keyh < P.cmEstimate t.c victim.keyh
    · simp [hc]
      omega
    · simp [hc]
      omega

theorem admission_contest_witness :
    Call.slruAdd ⟨0, "c", "5", 316⟩ ∈ (demoSeen.Add "e" "6").calls :=
  (admission_contest demoSeen "e" "6" ⟨0, "c", "5", 316⟩ ⟨1, "b", "2", 315⟩
    (Window.add ⟨0, "e", "6", 318⟩ (demoSeen.lru, demoSeen.data)).2.1
    (Window.add ⟨0, "e", "6", 318⟩ (demoSeen.lru, demoSeen.data)).2.2 rfl rfl).2.2.2 rfl rfl

/-- The cache `fresh 1 1 1 10` is the one `New` builds from `Size = 3` and
`Samples = 10`, whatever the callback. -/
theorem fresh_eq_New (cb : Option (String → Unit)) :
    New (parts String) ⟨3, 10, cb⟩ = fresh 1 1 1 10 := by
  have h1 : lruSize 3 = 1 := by rw [lruSize_eq 3 (by norm_num)]; decide
  have h2 : slruSize 3 = 2 := by rw [slruSize_eq 3 (by norm_num) (by norm_num)]; decide
  have h3 : slru20 3 = 1 := by rw [slru20_eq 3 (by norm_num), h2]; decide
  unfold New fresh
  simp only [h1, h2, h3]
  rfl

/-- C3 (the code at two failing inputs): `demoFull` is reached from `New` with
`Size = 3`, `Samples = 10` and a callback.  There the call `Add("d", "4")` discards
the window-evicted candidate `c` on the filter's refusal, and in `demoSeen` after
`Get("b")` the call `Add("e", "6")` discards the candidate `c` on the frequency
comparison; the actions of both calls are listed in full and contain no invocation of
the eviction callback. -/
theorem rejection_without_callback :
    demoFull = (New (parts String) ⟨3, 10, some (fun _ => ())⟩).run
        [Op.add "a" "1", Op.add "b" "2", Op.get "a", Op.add "c" "3"] ∧
      (demoFull.Add "d" "4").calls =
        [Call.lruAdd ⟨0, "d", "4", 317⟩, Call.println "Add / old item -> " "3",
          Call.slruVictim, Call.dkAllow 316,
          Call.println "Add bouncer !allow / old item -> " "3"] ∧
      ((demoSeen.run [Op.get "b"]).Add "e" "6").calls =
        [Call.lruAdd ⟨0, "e", "6", 318⟩, Call.println "Add / old item -> " "5",
          Call.slruVictim, Call.dkAllow 316, Call.cmEstimate 314, Call.cmEstimate 316,
          Call.println "Add ocount < vcount / old item -> " "5"] ∧
      Call.onEvict "3" ∉ (demoFull.Add "d" "4").calls ∧
      Call.onEvict "5" ∉ ((demoSeen.run [Op.get "b"]).Add "e" "6").calls :=
  ⟨by rw [fresh_eq_New]; rfl, rfl, rfl, Add_never_onEvict _ _ _ _, Add_never_onEvict _ _ _ _⟩

/-- C4: when the Window evicts a candidate, the Main Cache reports a victim and the
filter refuses the candidate's fingerprint, `Add` performs exactly the Window `add`,
the victim query and the filter query (and two prints), never the Main Cache `add`;
the Main Cache state is the one before the call. -/
theorem one_hit_wonder_rejected {P : Parts V} (t : T P) (key : String) (val : V)
    (oitem victim : slruItem V) (l : P.LRU) (d : P.Data)
    (hadd : P.lruAdd ⟨0, key, val, P.hash key⟩ (t.lru, t.data) = (some oitem, l, d))
    (hvictim : P.slruVictim t.slru d = some victim)
    (hallow : (P.dkAllow oitem.keyh t.bouncer).1 = false) :
    (t.Add key val).calls =
        [Call.lruAdd ⟨0, key, val, P.hash key⟩, Call.println "Add / old item -> " oitem.value,
          Call.slruVictim, Call.dkAllow oitem.keyh,
          Call.println "Add bouncer !allow / old item -> " oitem.value] ∧
      (∀ it, Call.slruAdd it ∉ (t.Add key val).calls) ∧
      (t.Add key val).t.slru = t.slru ∧
      (t.Add key val).t.lru = l ∧ (t.Add key val).t.data = d := by
  unfold T.Add
  simp [hadd, hvictim, hallow]

theorem one_hit_wonder_rejected_witness :
    (demoFull.Add "d" "4").t.slru = demoFull.slru :=
  (one_hit_wonder_rejected demoFull "d" "4" ⟨0, "c", "3", 316⟩ ⟨1, "b", "2", 315⟩
    (Window.add ⟨0, "d", "4", 317⟩ (demoFull.lru, demoFull.data)).2.1
    (Window.add ⟨0, "d", "4", 317⟩ (demoFull.lru, demoFull.data)).2.2 rfl rfl rfl).2.2.1

/-- C6: for a key present in the Shared Index, `Get` returns the value held by the
key's entry before the call together with `true`, records one observation for the
entry's fingerprint (after the aging step), and then calls exactly one of the two
`get` methods: the Window's when the entry's `listid` is 0, the Main Cache's
otherwise; the other cache is untouched. -/
theorem get_hit {P : Parts V} (t : T P) (key : String) (e : P.Elem)
    (hfound : P.lookup t.data key = some e) :
    (t.Get key).val = some (P.item t.lru t.slru e).value ∧ (t.Get key).ok = true ∧
      (t.Get key).t.c = P.cmAdd (P.item t.lru t.slru e).keyh (agedSketch t) ∧
      ((P.item t.lru t.slru e).listid = 0 →
        (t.Get key).calls =
            agingCalls t ++ [Call.cmAdd (P.item t.lru t.slru e).keyh, Call.lruGet e] ∧
          ((t.Get key).t.lru, (t.Get key).t.data) = P.lruGet e (t.lru, t.data) ∧
          (t.Get key).t.slru = t.slru) ∧
      ((P.item t.lru t.slru e).listid ≠ 0 →
        (t.Get key).calls =
            agingCalls t ++ [Call.cmAdd (P.item t.lru t.slru e).keyh, Call.slruGet e] ∧
          ((t.Get key).t.slru, (t.Get key).t.data) = P.slruGet e (t.slru, t.data) ∧
          (t.Get key).t.lru = t.lru) := by
  unfold T.Get agingCalls agedSketch
  by_cases hw : wrap64 (t.w + 1) = t.samples <;>
    by_cases hl : (P.item t.lru t.slru e).listid = 0 <;>
    simp [hw, hl, hfound]

theorem get_hit_witness :
    (demoFull.Get "c").val = some "3" ∧ (demoFull.Get "a").val = some "1" :=
  ⟨(get_hit demoFull "c" (3 : Nat) rfl).1, (get_hit demoFull "a" (2 : Nat) rfl).1⟩

/-- C7: for a key absent from the Shared Index, `Get` returns `(nil, false)`, its only
action after the aging step is one `add` on the sketch for `Hash64Str(key, 0)`, and
the Shared Index, the Window and the Main Cache are the ones before the call. -/
theorem get_miss {P : Parts V} (t : T P) (key : String)
    (hmiss : P.lookup t.data key = none) :
    (t.Get key).val = none ∧ (t.Get key).ok = false ∧
      (t.Get key).calls = agingCalls t ++ [Call.cmAdd (P.hash key)] ∧
      (t.Get key).t.c = P.cmAdd (P.hash key) (agedSketch t) ∧
      (t.Get key).t.data = t.data ∧ (t.Get key).t.lru = t.lru ∧
      (t.Get key).t.slru = t.slru := by
  unfold T.Get agingCalls agedSketch
  by_cases hw : wrap64 (t.w + 1) = t.samples <;> simp [hw, hmiss]

theorem get_miss_witness :
    (demoFull.Get "zz").val = none ∧ (demoFull.Get "zz").ok = false ∧
      (demoFull.Get "zz").calls = agingCalls demoFull ++ [Call.cmAdd (hash64 "zz")] ∧
      (demoFull.Get "zz").t.c = Sketch.add (hash64 "zz") (agedSketch demoFull) ∧
      (demoFull.Get "zz").t.data = demoFull.data ∧ (demoFull.Get "zz").t.lru = demoFull.lru ∧
      (demoFull.Get "zz").t.slru = demoFull.slru :=
  get_miss demoFull "zz" rfl

/-! ## The aging schedule -/

theorem wrap64_succ (w n : Int) (h0 : 0 ≤ w) (h1 : w < n) (h63 : n < 2 ^ 63) :
    wrap64 (w + 1) = w + 1 := by
  unfold wrap64
  norm_num at h63 ⊢
  omega

theorem Get_samples {P : Parts V} (t : T P) (key : String) :
    (t.Get key).t.samples = t.samples := by
  unfold T.Get
  simp only []
  split <;> split_ifs <;> rfl

theorem Get_w {P : Parts V} (t : T P) (key : String) :
    (t.Get key).t.w = if wrap64 (t.w + 1) = t.samples then 0 else wrap64 (t.w + 1) := by
  unfold T.Get
  simp only []
  split <;> split_ifs <;> rfl

theorem Add_samples_w {P : Parts V} (t : T P) (key : String) (val : V) :
    (t.Add key val).t.samples = t.samples ∧ (t.Add key val).t.w = t.w := by
  unfold T.Add
  simp only []
  split
  · exact ⟨rfl, rfl⟩
  · split
    · exact ⟨rfl, rfl⟩
    · split_ifs <;> exact ⟨rfl, rfl⟩

theorem run_snoc {P : Parts V} (t : T P) (ops : List (Op V)) (op : Op V) :
    t.run (ops ++ [op]) = (t.run ops).step op := by
  unfold T.run
  rw [List.foldl_append]
  rfl

theorem getCount_append (ops ops' : List (Op V)) :
    getCount (ops ++ ops') = getCount ops + getCount ops' := by
  induction ops with
  | nil => simp [getCount]
  | cons op ops ih =>
    cases op
    · simp [getCount, ih]; omega
    · simp [getCount, ih]

theorem succ_emod (k n w : Int) (hn : 1 ≤ n) (hw : w = k % n) :
    (k + 1) % n = if w + 1 = n then 0 else w + 1 := by
  have h0 : 0 ≤ k % n := Int.emod_nonneg k (by omega)
  have h1 : k % n < n := Int.emod_lt_of_pos k (by omega)
  rw [Int.add_emod, ← hw]
  have h1n : (1 : Int) % n = if n = 1 then 0 else 1 := by
    split_ifs with h
    · subst h; rfl
    · exact Int.emod_eq_of_lt (by omega) (by omega)
  split_ifs with h
  · rw [h1n]
    split_ifs with h'
    · subst h'; simp
    · rw [h]; simp
  · rw [h1n]
    split_ifs with h'
    · subst h'; omega
    · exact Int.emod_eq_of_lt (by omega) (by omega)

theorem run_counter {P : Parts V} (t : T P) (ops : List (Op V)) (h0 : t.w = 0)
    (h1 : 1 ≤ t.samples) (h63 : t.samples < 2 ^ 63) :
    (t.run ops).samples = t.samples ∧ (t.run ops).w = (getCount ops : Int) % t.samples := by
  induction ops using List.reverseRecOn with
  | nil => simp [T.run, getCount, h0]
  | append_singleton ops op ih =>
    obtain ⟨ihs, ihw⟩ := ih
    rw [run_snoc, getCount_append]
    have hw0 : 0 ≤ (t.run ops).w := by rw [ihw]; exact Int.emod_nonneg _ (by omega)
    have hw1 : (t.run ops).w < t.samples := by rw [ihw]; exact Int.emod_lt_of_pos _ (by omega)
    cases op with
    | get key =>
      simp only [T.step, getCount]
      refine ⟨by rw [Get_samples, ihs], ?_⟩
      rw [Get_w, ihs, wrap64_succ _ _ hw0 hw1 h63]
      have := succ_emod (getCount ops : Int) t.samples (t.run ops).w h1 ihw
      push_cast
      simpa using this.symm
    | add key val =>
      simp only [T.step, getCount]
      obtain ⟨hs, hw⟩ := Add_samples_w (t.run ops) key val
      refine ⟨by rw [hs, ihs], ?_⟩
      rw [hw, ihw]; simp

/-- The aging step (lines 72-77 of `Get`) read off a call of `Get`: the two resets
are among the actions exactly when the incremented counter equals the threshold, the
filter is then the reset one, and the sketch receives the observation after the reset. -/
theorem Get_aging {P : Parts V} (t : T P) (key : String) :
    (Call.cmReset ∈ (t.Get key).calls ↔ wrap64 (t.w + 1) = t.samples) ∧
      (Call.dkReset ∈ (t.Get key).calls ↔ wrap64 (t.w + 1) = t.samples) ∧
      (t.Get key).t.bouncer =
        (if wrap64 (t.w + 1) = t.samples then P.dkReset t.bouncer else t.bouncer) ∧
      ∃ keyh, (t.Get key).t.c =
        P.cmAdd keyh (if wrap64 (t.w + 1) = t.samples then P.cmReset t.c else t.c) := by
  unfold T.Get
  by_cases hw : wrap64 (t.w + 1) = t.samples
  · simp only [hw, if_true]
    split
    · exact ⟨by simp, by simp, rfl, _, rfl⟩
    · split_ifs <;> exact ⟨by simp, by simp, rfl, _, rfl⟩
  · simp only [hw, if_false]
    split
    · exact ⟨by simp, by simp, rfl, _, rfl⟩
    · split_ifs <;> exact ⟨by simp, by simp, rfl, _, rfl⟩

theorem dvd_succ_iff (k n w : Int) (hn : 1 ≤ n) (hw : w = k % n) :
    n ∣ k + 1 ↔ w + 1 = n := by
  have h0 : 0 ≤ k % n := Int.emod_nonneg k (by omega)
  rw [Int.dvd_iff_emod_eq_zero, succ_emod k n w hn hw]
  split_ifs with h
  · simp [h]
  · constructor
    · intro h'; omega
    · intro h'; exact absurd h' h

/-- C8: in a cache built by `New` with sample threshold `n` (`1 <= n`, an `int`), after
any sequence of `Get` and `Add` calls containing `k` calls of `Get` the sample counter
is `k mod n`, so it lies in `[0, n)`; and the next `Get`, the `(k+1)`-th, resets the
sketch and the filter if and only if `n` divides `k + 1`. -/
theorem aging_schedule (P : Parts V) (cfg : Config V) (ops : List (Op V)) (key : String)
    (h1 : 1 ≤ cfg.Samples) (h63 : cfg.Samples < 2 ^ 63) :
    ((New P cfg).run ops).w = (getCount ops : Int) % cfg.Samples ∧
      0 ≤ ((New P cfg).run ops).w ∧ ((New P cfg).run ops).w < cfg.Samples ∧
      (Call.cmReset ∈ (((New P cfg).run ops).Get key).calls ↔
        cfg.Samples ∣ (getCount ops : Int) + 1) ∧
      (Call.dkReset ∈ (((New P cfg).run ops).Get key).calls ↔
        cfg.Samples ∣ (getCount ops : Int) + 1) ∧
      (cfg.Samples ∣ (getCount ops : Int) + 1 →
        (((New P cfg).run ops).Get key).t.bouncer = P.dkReset ((New P cfg).run ops).bouncer ∧
        ∃ keyh, (((New P cfg).run ops).Get key).t.c =
          P.cmAdd keyh (P.cmReset ((New P cfg).run ops).c)) ∧
      (¬ cfg.Samples ∣ (getCount ops : Int) + 1 →
        (((New P cfg).run ops).Get key).t.bouncer = ((New P cfg).run ops).bouncer ∧
        ∃ keyh, (((New P cfg).run ops).Get key).t.c =
          P.cmAdd keyh ((New P cfg).run ops).c) := by
  have hs : (New P cfg).samples = cfg.Samples := rfl
  obtain ⟨hsam, hw⟩ := run_counter (New P cfg) ops rfl (by rw [hs]; exact h1)
    (by rw [hs]; exact h63)
  rw [hs] at hsam hw
  have hw0 : 0 ≤ ((New P cfg).run ops).w := by rw [hw]; exact Int.emod_nonneg _ (by omega)
  have hw1 : ((New P cfg).run ops).w < cfg.Samples := by
    rw [hw]; exact Int.emod_lt_of_pos _ (by omega)
  have hdvd := dvd_succ_iff (getCount ops : Int) cfg.Samples _ h1 hw
  have hwrap := wrap64_succ _ _ hw0 hw1 h63
  obtain ⟨ha, hb, hc, keyh, hd⟩ := Get_aging ((New P cfg).run ops) key
  rw [hwrap, hsam] at ha hb hc hd
  rw [← hdvd] at ha hb
  refine ⟨hw, hw0, hw1, ha, hb, fun h => ?_, fun h => ?_⟩
  · rw [if_pos (hdvd.mp h)] at hc hd; exact ⟨hc, keyh, hd⟩
  · rw [if_neg (fun h' => h (hdvd.mpr h'))] at hc hd; exact ⟨hc, keyh, hd⟩

theorem aging_schedule_witness :
    ((New (parts String) ⟨3, 2, none⟩).run [Op.get "a", Op.add "a" "1", Op.get "b"]).w =
      (getCount [Op.get "a", Op.add "a" "1", Op.get "b"] : Int) % 2 :=
  (aging_schedule (parts String) ⟨3, 2, none⟩ [Op.get "a", Op.add "a" "1", Op.get "b"]
    "c" (by decide) (by decide)).1

/-! ## Thresholds that are not positive -/

theorem run_counter_nonpos {P : Parts V} (t : T P) (ops : List (Op V)) (h0 : t.w = 0)
    (hs : t.samples ≤ 0) (hmin : -2 ^ 63 ≤ t.samples)
    (hk : (getCount ops : Int) < 2 ^ 64 + t.samples) :
    (t.run ops).samples = t.samples ∧ (t.run ops).w = wrap64 (getCount ops) := by
  induction ops using List.reverseRecOn with
  | nil => simp [T.run, getCount, h0, wrap64]
  | append_singleton ops op ih =>
    rw [run_snoc]
    rw [getCount_append] at hk ⊢
    cases op with
    | get key =>
      simp only [getCount, Nat.cast_add, Nat.cast_one, zero_add] at hk ⊢
      obtain ⟨ihs, ihw⟩ := ih (by omega)
      simp only [T.step]
      refine ⟨by rw [Get_samples, ihs], ?_⟩
      rw [Get_w, ihs, ihw]
      have hne : wrap64 (wrap64 (getCount ops) + 1) ≠ t.samples := by
        unfold wrap64
        norm_num at hk hmin ⊢
        omega
      rw [if_neg hne]
      unfold wrap64
      norm_num
      omega
    | add key val =>
      simp only [getCount, Nat.cast_add, Nat.cast_zero, add_zero] at hk ⊢
      obtain ⟨ihs, ihw⟩ := ih hk
      simp only [T.step]
      obtain ⟨hs', hw'⟩ := Add_samples_w (t.run ops) key val
      exact ⟨by rw [hs', ihs], by rw [hw', ihw]⟩

/-- C11 (as stated, refuted): `New` with `Samples = 0` stores the threshold 0, which is
not positive. -/
theorem samples_not_normalised :
    (New (parts String) ⟨3, 0, none⟩).samples = 0 ∧
      ¬ 0 < (New (parts String) ⟨3, 0, none⟩).samples :=
  ⟨rfl, by decide⟩

/-- C11 (amended): `New` stores `Samples` as it is.  With a threshold `s <= 0` (an
`int`), as long as fewer than `2 ^ 64 + s` calls of `Get` were made the sample counter
is the wrapped number of those calls, and the next `Get` resets the sketch and the
filter exactly when it is call number `2 ^ 64 + s`, where the wrapped counter meets
the threshold. -/
theorem samples_stored_unchanged (P : Parts V) (cfg : Config V) (ops : List (Op V))
    (key : String) (hs : cfg.Samples ≤ 0) (hmin : -2 ^ 63 ≤ cfg.Samples)
    (hk : (getCount ops : Int) < 2 ^ 64 + cfg.Samples) :
    (New P cfg).samples = cfg.Samples ∧
      ((New P cfg).run ops).samples = cfg.Samples ∧
      ((New P cfg).run ops).w = wrap64 (getCount ops) ∧
      (Call.cmReset ∈ (((New P cfg).run ops).Get key).calls ↔
        (getCount ops : Int) + 1 = 2 ^ 64 + cfg.Samples) ∧
      (Call.dkReset ∈ (((New P cfg).run ops).Get key).calls ↔
        (getCount ops : Int) + 1 = 2 ^ 64 + cfg.Samples) := by
  have hs0 : (New P cfg).samples = cfg.Samples := rfl
  obtain ⟨hsam, hw⟩ := run_counter_nonpos (New P cfg) ops rfl (by rw [hs0]; exact hs)
    (by rw [hs0]; exact hmin) (by rw [hs0]; exact hk)
  rw [hs0] at hsam
  obtain ⟨ha, hb, _, _⟩ := Get_aging ((New P cfg).run ops) key
  have hiff : wrap64 (((New P cfg).run ops).w + 1) = ((New P cfg).run ops).samples ↔
      (getCount ops : Int) + 1 = 2 ^ 64 + cfg.Samples := by
    rw [hw, hsam]
    unfold wrap64
    norm_num at hk hmin ⊢
    omega
  exact ⟨rfl, hsam, hw, ha.trans hiff, hb.trans hiff⟩

theorem samples_stored_unchanged_witness :
    ((New (parts String) ⟨3, 0, none⟩).run [Op.get "a", Op.add "a" "1", Op.get "b"]).w =
        wrap64 (getCount [Op.get "a", Op.add "a" "1", Op.get "b"]) ∧
      Call.cmReset ∉
        (((New (parts String) ⟨3, 0, none⟩).run
          [Op.get "a", Op.add "a" "1", Op.get "b"]).Get "c").calls := by
  have h := samples_stored_unchanged (parts String) ⟨3, 0, none⟩
    [Op.get "a", Op.add "a" "1", Op.get "b"] "c" (by decide) (by decide) (by decide)
  exact ⟨h.2.2.1, fun hc => absurd (h.2.2.2.1.mp hc) (by decide)⟩

/-! ## The capacities handed to the Window and to the Main Cache -/

/-- C12: for every `Size`, the capacity `New` hands to the Window is
`lruSize = max(1, Size / 100)` with Go's integer division; it is 1 for every
`Size < 200` and `floor(Size / 100)` for every `Size >= 100`. -/
theorem window_capacity (P : Parts V) (cfg : Config V) :
    (New P cfg).lru = P.newLRU (lruSize cfg.Size) ∧
      lruSize cfg.Size = max 1 (Int.tdiv cfg.Size 100) ∧
      (cfg.Size < 200 → lruSize cfg.Size = 1) ∧
      (100 ≤ cfg.Size → lruSize cfg.Size = cfg.Size / 100) := by
  have hdef : lruSize cfg.Size = max 1 (Int.tdiv cfg.Size 100) := by
    unfold lruSize lruPct
    simp only [one_mul]
    split_ifs with h <;> omega
  refine ⟨rfl, hdef, fun h => ?_, fun h => ?_⟩
  · rw [hdef]
    rcases le_or_lt 0 cfg.Size with h0 | h0
    · rw [Int.tdiv_eq_ediv h0 (by norm_num)]; omega
    · have : Int.tdiv cfg.Size 100 ≤ 0 := by
        have h1 := Int.tdiv_neg cfg.Size 100
        have h2 : Int.tdiv cfg.Size 100 = -Int.tdiv (-cfg.Size) 100 := by
          rw [← Int.neg_tdiv]; simp
        have h3 : 0 ≤ Int.tdiv (-cfg.Size) 100 := Int.tdiv_nonneg (by omega) (by norm_num)
        omega
      omega
  · rw [lruSize_eq cfg.Size (by omega)]; omega

theorem window_capacity_witness :
    lruSize 150 = 1 ∧ lruSize 150 = 150 / 100 :=
  ⟨(window_capacity (parts String) ⟨150, 10, none⟩).2.2.1 (by decide),
    (window_capacity (parts String) ⟨150, 10, none⟩).2.2.2 (by decide)⟩

theorem f64ToInt_intCast (n : Int) : f64ToInt (n : ℚ) = n := by
  unfold f64ToInt
  split_ifs <;> simp

theorem slruSize_pow60 : slruSize (2 ^ 60) = 1141392289560778496 := by
  have hc : (((100 : ℚ) - (lruPct : ℚ)) / 100) = 99 / 100 := by norm_num [lruPct]
  have h1 : f64OfInt (2 ^ 60) = 2 ^ 60 := by
    unfold f64OfInt
    have := f64Round_eq (((2 ^ 60 : Int) : ℚ)) 60 (2 ^ 52) (by norm_num) (by norm_num)
      (by norm_num) (by norm_num) (by norm_num)
    rw [this]; norm_num
  have h2 : f64Mul (2 ^ 60) (8917127262193582 / 2 ^ 53) = ((1141392289560778496 : Int) : ℚ) := by
    unfold f64Mul
    have := f64Round_eq ((2 : ℚ) ^ 60 * (8917127262193582 / 2 ^ 53)) 59 8917127262193582
      (by norm_num) (by norm_num) (by norm_num) (by norm_num) (by norm_num)
    rw [this]; norm_num
  unfold slruSize
  simp only []
  rw [hc, f64Round_99, h1, h2, f64ToInt_intCast]
  norm_num

theorem slru20_pow60 : slru20 (2 ^ 60) = 228278457912155712 := by
  have h1 : f64OfInt 1141392289560778496 = 1141392289560778496 := by
    unfold f64OfInt
    have := f64Round_eq (((1141392289560778496 : Int) : ℚ)) 59 8917127262193582
      (by norm_num) (by norm_num) (by norm_num) (by norm_num) (by norm_num)
    rw [this]; norm_num
  have h2 : f64Mul (7205759403792794 / 2 ^ 55) 1141392289560778496 =
      ((228278457912155712 : Int) : ℚ) := by
    unfold f64Mul
    have := f64Round_eq ((7205759403792794 / 2 ^ 55 : ℚ) * 1141392289560778496) 57
      7133701809754866 (by norm_num) (by norm_num) (by norm_num) (by norm_num) (by norm_num)
    rw [this]; norm_num
  unfold slru20
  simp only []
  rw [slruSize_pow60, f64Round_02, h1, h2, f64ToInt_intCast]
  norm_num

/-- C13 (as stated, refuted): at `Size = 2 ^ 60` the Main capacity is
`M = 1141392289560778496` and `slru20 = int(0.2 * float64(M))` is
`228278457912155712`, thirteen more than `floor(M / 5)`. -/
theorem main_split_fails_at_large :
    slru20 (2 ^ 60) = 228278457912155712 ∧
      slru20 (2 ^ 60) ≠ max 1 (slruSize (2 ^ 60) / 5) := by
  refine ⟨slru20_pow60, ?_⟩
  rw [slru20_pow60, slruSize_pow60]
  decide

/-- C13 (amended): for every `Size`, `New` passes `slru20` and `slruSize - slru20` to
`newSLRU`, where `slru20 = max(1, int(0.2 * float64(slruSize)))`, so the two
capacities sum to exactly the Main capacity `slruSize`; for `Size` below `2 ^ 46`,
`slru20 = max(1, floor(slruSize / 5))`. -/
theorem main_split (P : Parts V) (cfg : Config V) :
    (New P cfg).slru =
        P.newSLRU (slru20 cfg.Size) (slruSize cfg.Size - slru20 cfg.Size) ∧
      slru20 cfg.Size + (slruSize cfg.Size - slru20 cfg.Size) = slruSize cfg.Size ∧
      slru20 cfg.Size =
        max 1 (f64ToInt (f64Mul (f64Round (2 / 10)) (f64OfInt (slruSize cfg.Size)))) ∧
      (cfg.Size < 2 ^ 46 → slru20 cfg.Size = max 1 (slruSize cfg.Size / 5)) := by
  refine ⟨rfl, by ring, ?_, fun h => slru20_eq cfg.Size h⟩
  unfold slru20
  simp only []
  split_ifs with h <;> omega

theorem main_split_witness :
    slru20 100 = max 1 (slruSize 100 / 5) :=
  (main_split (parts String) ⟨100, 10, none⟩).2.2.2 (by decide)

/-! ## The paths of `Add` -/

/-- C14: when the Window evicts a candidate and the Main Cache reports no victim, `Add`
calls the Main Cache `add` with the candidate and nothing else after the victim query
but a print: the filter and the sketch are not called and are unchanged, and the
eviction callback is not invoked. -/
theorem uncontested_admission {P : Parts V} (t : T P) (key : String) (val : V)
    (oitem : slruItem V) (l : P.LRU) (d : P.Data)
    (hadd : P.lruAdd ⟨0, key, val, P.hash key⟩ (t.lru, t.data) = (some oitem, l, d))
    (hvictim : P.slruVictim t.slru d = none) :
    (t.Add key val).calls =
        [Call.lruAdd ⟨0, key, val, P.hash key⟩, Call.println "Add / old item -> " oitem.value,
          Call.slruVictim, Call.println "Add victim == nil / old item -> " oitem.value,
          Call.slruAdd oitem] ∧
      ((t.Add key val).t.slru, (t.Add key val).t.data) = P.slruAdd oitem (t.slru, d) ∧
      (t.Add key val).t.lru = l ∧
      (t.Add key val).t.bouncer = t.bouncer ∧ (t.Add key val).t.c = t.c ∧
      (∀ h, Call.dkAllow h ∉ (t.Add key val).calls) ∧
      (∀ h, Call.cmEstimate h ∉ (t.Add key val).calls) ∧
      (∀ v, Call.onEvict v ∉ (t.Add key val).calls) := by
  unfold T.Add
  simp [hadd, hvictim]

theorem uncontested_admission_witness :
    (demoOne.Add "b" "2").t.bouncer = demoOne.bouncer ∧ (demoOne.Add "b" "2").t.c = demoOne.c :=
  ⟨(uncontested_admission demoOne "b" "2" ⟨0, "a", "1", 314⟩
      (Window.add ⟨0, "b", "2", 315⟩ (demoOne.lru, demoOne.data)).2.1
      (Window.add ⟨0, "b", "2", 315⟩ (demoOne.lru, demoOne.data)).2.2 rfl rfl).2.2.2.1,
    (uncontested_admission demoOne "b" "2" ⟨0, "a", "1", 314⟩
      (Window.add ⟨0, "b", "2", 315⟩ (demoOne.lru, demoOne.data)).2.1
      (Window.add ⟨0, "b", "2", 315⟩ (demoOne.lru, demoOne.data)).2.2 rfl rfl).2.2.2.2.1⟩

/-- C15: when the Window `add` reports that nothing was evicted, the only action of
`Add` is that call, with the new entry tagged `listid = 0` and carrying
`Hash64Str(key, 0)`; the Main Cache, the filter, the sketch and the sample counter are
unchanged. -/
theorem add_without_eviction {P : Parts V} (t : T P) (key : String) (val : V)
    (l : P.LRU) (d : P.Data)
    (hadd : P.lruAdd ⟨0, key, val, P.hash key⟩ (t.lru, t.data) = (none, l, d)) :
    (t.Add key val).calls = [Call.lruAdd ⟨0, key, val, P.hash key⟩] ∧
      (t.Add key val).t.lru = l ∧ (t.Add key val).t.data = d ∧
      (t.Add key val).t.slru = t.slru ∧ (t.Add key val).t.bouncer = t.bouncer ∧
      (t.Add key val).t.c = t.c ∧ (t.Add key val).t.w = t.w := by
  unfold T.Add
  simp [hadd]

theorem add_without_eviction_witness :
    ((fresh 1 1 1 10).Add "a" "1").calls = [Call.lruAdd ⟨0, "a", "1", hash64 "a"⟩] :=
  (add_without_eviction (fresh 1 1 1 10) "a" "1"
    (Window.add ⟨0, "a", "1", 314⟩ ((fresh 1 1 1 10).lru, (fresh 1 1 1 10).data)).2.1
    (Window.add ⟨0, "a", "1", 314⟩ ((fresh 1 1 1 10).lru, (fresh 1 1 1 10).data)).2.2
    rfl).1

/-- C16 (as stated, refuted): in `demoFull` the call `Add("d", "4")` writes two lines
to standard output. -/
theorem add_prints :
    printed (demoFull.Add "d" "4").calls =
      [("Add / old item -> ", "3"), ("Add bouncer !allow / old item -> ", "3")] := by
  rfl

theorem Get_prints_nothing {P : Parts V} (t : T P) (key : String) :
    printed (t.Get key).calls = [] := by
  unfold T.Get
  simp only []
  split
  · split_ifs <;> rfl
  · split_ifs <;> rfl

/-- C16 (amended): `Get` writes nothing to standard output, and `Add` writes nothing
when the Window evicts nothing.  Whenever the Window evicts a candidate, `Add` writes
two lines with the candidate's value: `Add / old item -> ` and then the line of the
path taken: `Add victim == nil` when the Main Cache reports no victim,
`Add bouncer !allow` when the filter refuses the candidate, `Add ocount < vcount`
when the filter allows it and its estimate is below the victim's, and
`Add final slru.add` when it is admitted. -/
theorem add_output {P : Parts V} (t : T P) (key : String) (val : V) :
    printed (t.Get key).calls = [] ∧
      ((P.lruAdd ⟨0, key, val, P.hash key⟩ (t.lru, t.data)).1 = none →
        printed (t.Add key val).calls = []) ∧
      (∀ oitem, (P.lruAdd ⟨0, key, val, P.hash key⟩ (t.lru, t.data)).1 = some oitem →
        (P.slruVictim t.slru (P.lruAdd ⟨0, key, val, P.hash key⟩ (t.lru, t.data)).2.2 = none →
          printed (t.Add key val).calls =
            [("Add / old item -> ", oitem.value),
              ("Add victim == nil / old item -> ", oitem.value)]) ∧
        (∀ victim,
          P.slruVictim t.slru (P.lruAdd ⟨0, key, val, P.hash key⟩ (t.lru, t.data)).2.2 =
            some victim →
          ((P.dkAllow oitem.keyh t.bouncer).1 = false →
            printed (t.Add key val).calls =
              [("Add / old item -> ", oitem.value),
                ("Add bouncer !allow / old item -> ", oitem.value)]) ∧
          ((P.dkAllow oitem.keyh t.bouncer).1 = true →
            P.cmEstimate t.c oitem.keyh < P.cmEstimate t.c victim.keyh →
            printed (t.Add key val).calls =
              [("Add / old item -> ", oitem.value),
                ("Add ocount < vcount / old item -> ", oitem.value)]) ∧
          ((P.dkAllow oitem.keyh t.bouncer).1 = true →
            ¬ P.cmEstimate t.c oitem.keyh < P.cmEstimate t.c victim.keyh →
            printed (t.Add key val).calls =
              [("Add / old item -> ", oitem.value),
                ("Add final slru.add / old item -> ", oitem.value)]))) := by
  refine ⟨Get_prints_nothing t key, fun h => ?_, fun oitem h => ⟨fun hv => ?_,
    fun victim hv => ⟨fun ha => ?_, fun ha hc => ?_, fun ha hc => ?_⟩⟩⟩
  · unfold T.Add
    simp only [h]
    rfl
  · unfold T.Add
    simp only [h, hv]
    rfl
  · unfold T.Add
    simp only [h, hv, ha]
    rfl
  · unfold T.Add
    simp only [h, hv, ha, hc]
    rfl
  · unfold T.Add
    simp only [h, hv, ha, hc]
    rfl

theorem add_output_witness :
    printed (demoFull.Add "d" "4").calls =
        [("Add / old item -> ", "3"), ("Add bouncer !allow / old item -> ", "3")] ∧
      printed (demoSeen.Add "e" "6").calls =
        [("Add / old item -> ", "5"), ("Add final slru.add / old item -> ", "5")] ∧
      printed ((demoSeen.run [Op.get "b"]).Add "e" "6").calls =
        [("Add / old item -> ", "5"), ("Add ocount < vcount / old item -> ", "5")] ∧
      printed (demoOne.Add "b" "2").calls =
        [("Add / old item -> ", "1"), ("Add victim == nil / old item -> ", "1")] ∧
      printed ((fresh 1 1 1 10).Add "a" "1").calls = [] :=
  ⟨(((add_output demoFull "d" "4").2.2 ⟨0, "c", "3", 316⟩ rfl).2 ⟨1, "b", "2", 315⟩ rfl).1 rfl,
    (((add_output demoSeen "e" "6").2.2 ⟨0, "c", "5", 316⟩ rfl).2
      ⟨1, "b", "2", 315⟩ rfl).2.2 rfl (by decide),
    (((add_output (demoSeen.run [Op.get "b"]) "e" "6").2.2 ⟨0, "c", "5", 316⟩ rfl).2
      ⟨1, "a", "1", 314⟩ rfl).2.1 rfl (by decide),
    ((add_output demoOne "b" "2").2.2 ⟨0, "a", "1", 314⟩ rfl).1 rfl,
    (add_output (fresh 1 1 1 10) "a" "1").2.1 rfl⟩

/-! ## The order of aging and observation, and what `Add` leaves alone -/

/-- C17: in a call of `Get` whose incremented sample counter equals the threshold, the
two resets come first and the observation of the call is recorded on the reset sketch:
the resulting sketch is `add(fp, reset(sketch))`, with `fp = Hash64Str(key, 0)` on a
miss and the entry's stored fingerprint on a hit; the filter is the reset one and the
counter is zero. -/
theorem aging_precedes_observation {P : Parts V} (t : T P) (key : String)
    (hage : wrap64 (t.w + 1) = t.samples) :
    (t.Get key).t.bouncer = P.dkReset t.bouncer ∧ (t.Get key).t.w = 0 ∧
      (P.lookup t.data key = none →
        (t.Get key).t.c = P.cmAdd (P.hash key) (P.cmReset t.c) ∧
          (t.Get key).calls = [Call.cmReset, Call.dkReset, Call.cmAdd (P.hash key)]) ∧
      (∀ e, P.lookup t.data key = some e →
        (t.Get key).t.c = P.cmAdd (P.item t.lru t.slru e).keyh (P.cmReset t.c) ∧
          (t.Get key).calls.take 3 =
            [Call.cmReset, Call.dkReset, Call.cmAdd (P.item t.lru t.slru e).keyh]) := by
  refine ⟨?_, ?_, fun h => ?_, fun e h => ?_⟩
  · have := (Get_aging t key).2.2.1
    rw [if_pos hage] at this; exact this
  · rw [Get_w, if_pos hage]
  · unfold T.Get
    simp [hage, h]
  · unfold T.Get
    by_cases hl : (P.item t.lru t.slru e).listid = 0 <;> simp [hage, h, hl]

theorem aging_precedes_observation_witness :
    ((New (parts String) ⟨3, 1, none⟩).Get "zz").t.c =
        Sketch.add (hash64 "zz") (Sketch.reset (Sketch.new 3)) ∧
      Sketch.add (hash64 "zz") (Sketch.reset (Sketch.new 3)) ≠
        Sketch.reset (Sketch.add (hash64 "zz") (Sketch.new 3)) :=
  ⟨((aging_precedes_observation (New (parts String) ⟨3, 1, none⟩) "zz" rfl).2.2.1 rfl).1,
    by decide⟩

/-- C18: `Add` leaves the sample counter, the threshold and the sketch unchanged and
never calls `add` or `reset` on the sketch nor `reset` on the filter; it calls the
filter's `allow` at most once, and only with the fingerprint of a candidate the Window
evicted while the Main Cache reported a victim. -/
theorem add_reads_only {P : Parts V} (t : T P) (key : String) (val : V) :
    (t.Add key val).t.w = t.w ∧ (t.Add key val).t.samples = t.samples ∧
      (t.Add key val).t.c = t.c ∧
      (∀ h, Call.cmAdd h ∉ (t.Add key val).calls) ∧
      Call.cmReset ∉ (t.Add key val).calls ∧ Call.dkReset ∉ (t.Add key val).calls ∧
      allowCount (t.Add key val).calls ≤ 1 ∧
      (∀ h, Call.dkAllow h ∈ (t.Add key val).calls →
        ∃ oitem victim,
          (P.lruAdd ⟨0, key, val, P.hash key⟩ (t.lru, t.data)).1 = some oitem ∧
          P.slruVictim t.slru (P.lruAdd ⟨0, key, val, P.hash key⟩ (t.lru, t.data)).2.2 =
            some victim ∧
          h = oitem.keyh) := by
  unfold T.Add
  simp only []
  split
  · simp [allowCount]
  · rename_i oitem ho
    split
    · simp [allowCount]
    · rename_i victim hv
      split_ifs <;> simp [allowCount, ho, hv]

theorem add_reads_only_witness :
    ∃ oitem victim,
      (Window.add ⟨0, "d", "4", hash64 "d"⟩ (demoFull.lru, demoFull.data)).1 = some oitem ∧
      Main.victim demoFull.slru
        (Window.add ⟨0, "d", "4", hash64 "d"⟩ (demoFull.lru, demoFull.data)).2.2 =
          some victim ∧
      316 = oitem.keyh :=
  (add_reads_only demoFull "d" "4").2.2.2.2.2.2.2 316 (by
    have hcalls : (demoFull.Add "d" "4").calls =
        [Call.lruAdd ⟨0, "d", "4", 317⟩, Call.println "Add / old item -> " "3",
          Call.slruVictim, Call.dkAllow 316,
          Call.println "Add bouncer !allow / old item -> " "3"] := rfl
    rw [hcalls]; simp)

/-! ## Fingerprints of indexed entries -/

theorem Consistent_shrink {nodes nodes' : Nodes V} {d d' : Index} (keep : String → Prop)
    (h : Consistent nodes d) (hnext : d'.next = d.next)
    (hsub : ∀ n' ∈ nodes', ∃ n ∈ nodes, sig n' = sig n)
    (hkeep : ∀ n ∈ nodes, keep n.2.key → ∃ n' ∈ nodes', sig n' = sig n)
    (hidx : ∀ p ∈ d'.m, p ∈ d.m ∧ keep p.1) : Consistent nodes' d' := by
  obtain ⟨h1, h2, h3⟩ := h
  refine ⟨fun n' hn' => ?_, fun a ha b hb hab => ?_, fun p hp => ?_⟩
  · obtain ⟨n, hn, hs⟩ := hsub n' hn'
    simp only [sig, Prod.mk.injEq] at hs
    obtain ⟨e1, e2, e3⟩ := hs
    rw [e1, e2, e3, hnext]; exact h1 n hn
  · obtain ⟨n, hn, hs⟩ := hsub a ha
    obtain ⟨m, hm, hs'⟩ := hsub b hb
    simp only [sig, Prod.mk.injEq] at hs hs'
    rw [hs.2.1, hs'.2.1]
    exact h2 n hn m hm (by rw [← hs.1, ← hs'.1]; exact hab)
  · obtain ⟨hp1, hp2⟩ := hidx p hp
    obtain ⟨n, hn, e1, e2⟩ := h3 p hp1
    obtain ⟨n', hn', hs⟩ := hkeep n hn (by rw [e2]; exact hp2)
    simp only [sig, Prod.mk.injEq] at hs
    exact ⟨n', hn', by rw [hs.1, e1], by rw [hs.2.1, e2]⟩

theorem Consistent_congr {nodes nodes' : Nodes V} {d : Index}
    (h : Consistent nodes d) (hsub : ∀ n' ∈ nodes', ∃ n ∈ nodes, sig n' = sig n)
    (hsup : ∀ n ∈ nodes, ∃ n' ∈ nodes', sig n' = sig n) : Consistent nodes' d :=
  Consistent_shrink (fun _ => True) h rfl hsub (fun n hn _ => hsup n hn)
    (fun _ hp => ⟨hp, trivial⟩)

theorem Consistent_push {nodes : Nodes V} {d : Index} (it : slruItem V)
    (h : Consistent nodes d) (hit : it.keyh = hash64 it.key) :
    Consistent ((d.next, it) :: nodes) (d.register it.key) := by
  obtain ⟨h1, h2, h3⟩ := h
  refine ⟨fun n hn => ?_, fun a ha b hb hab => ?_, fun p hp => ?_⟩
  · rcases List.mem_cons.mp hn with rfl | hn
    · exact ⟨hit, Nat.lt_succ_self _⟩
    · exact ⟨(h1 n hn).1, Nat.lt_succ_of_lt (h1 n hn).2⟩
  · rcases List.mem_cons.mp ha with rfl | ha <;> rcases List.mem_cons.mp hb with rfl | hb
    · rfl
    · have := (h1 b hb).2; simp only at hab; omega
    · have := (h1 a ha).2; simp only at hab; omega
    · exact h2 a ha b hb hab
  · simp only [Index.register, List.mem_cons] at hp
    rcases hp with rfl | hp
    · exact ⟨(d.next, it), List.mem_cons_self _ _, rfl, rfl⟩
    · obtain ⟨n, hn, e⟩ := h3 p (List.mem_filter.mp hp).1
      exact ⟨n, List.mem_cons_of_mem _ hn, e⟩

theorem Consistent_deregister {nodes nodes' : Nodes V} {d : Index} (k : String)
    (h : Consistent nodes d) (hsub : ∀ n' ∈ nodes', n' ∈ nodes)
    (hkeep : ∀ n ∈ nodes, n.2.key ≠ k → n ∈ nodes') :
    Consistent nodes' (d.deregister k) := by
  refine Consistent_shrink (fun key => key ≠ k) h rfl (fun n' hn' => ⟨n', hsub n' hn', rfl⟩)
    (fun n hn hk => ⟨n, hkeep n hn hk, rfl⟩) (fun p hp => ?_)
  simp only [Index.deregister, List.mem_filter, bne_iff_ne] at hp
  exact ⟨hp.1, hp.2⟩

theorem mem_of_getLast? {α : Type} {l : List α} {a : α} (h : l.getLast? = some a) :
    l = l.dropLast ++ [a] := by
  have := List.dropLast_append_getLast? a h
  exact this.symm

theorem Consistent_of_mem_iff {nodes nodes' : Nodes V} {d : Index}
    (h : Consistent nodes d) (hiff : ∀ n, n ∈ nodes' ↔ n ∈ nodes) : Consistent nodes' d :=
  Consistent_congr h (fun n hn => ⟨n, (hiff n).mp hn, rfl⟩)
    (fun n hn => ⟨n, (hiff n).mpr hn, rfl⟩)

theorem mem_moveToFront (e : Nat) (ll : Nodes V) (n : Nat × slruItem V) :
    n ∈ moveToFront e ll ↔ n ∈ ll := by
  unfold moveToFront
  simp only [List.mem_append, List.mem_filter, bne_iff_ne, beq_iff_eq]
  constructor
  · rintro (h | h) <;> exact h.1
  · intro h
    by_cases he : n.1 = e
    · exact Or.inl ⟨h, he⟩
    · exact Or.inr ⟨h, he⟩

theorem Window_get_consistent (e : Nat) (w : Window V) (d : Index) (rest : Nodes V)
    (h : Consistent (w.ll ++ rest) d) :
    Consistent ((Window.get e (w, d)).1.ll ++ rest) (Window.get e (w, d)).2 := by
  refine Consistent_of_mem_iff h (fun n => ?_)
  simp only [Window.get, List.mem_append, mem_moveToFront]

theorem Window_add_consistent (it : slruItem V) (w : Window V) (d : Index) (rest : Nodes V)
    (h : Consistent (w.ll ++ rest) d) (hit : it.keyh = hash64 it.key) :
    Consistent ((Window.add it (w, d)).2.1.ll ++ rest) (Window.add it (w, d)).2.2 ∧
      ∀ o, (Window.add it (w, d)).1 = some o → o.keyh = hash64 o.key := by
  have hp : Consistent (((d.next, it) :: w.ll) ++ rest) (d.register it.key) :=
    Consistent_push it h hit
  unfold Window.add
  simp only []
  split_ifs with hcap
  · cases hlast : ((d.next, it) :: w.ll).getLast? with
    | none => exact ⟨hp, fun o ho => by simp at ho⟩
    | some last =>
      have hsplit := mem_of_getLast? hlast
      have hmem : last ∈ (d.next, it) :: w.ll := by
        rw [hsplit]; simp
      simp only []
      constructor
      · refine Consistent_deregister last.2.key hp (fun n hn => ?_) (fun n hn hk => ?_)
        · rcases List.mem_append.mp hn with hn | hn
          · exact List.mem_append_left _ (List.mem_of_mem_dropLast hn)
          · exact List.mem_append_right _ hn
        · rcases List.mem_append.mp hn with hn | hn
          · rw [hsplit] at hn
            rcases List.mem_append.mp hn with hn | hn
            · exact List.mem_append_left _ hn
            · simp only [List.mem_singleton] at hn
              exact absurd (by rw [hn]) hk
          · exact List.mem_append_right _ hn
      · intro o ho
        simp only [Option.some.injEq] at ho
        rw [← ho]
        exact (hp.1 last (List.mem_append_left _ hmem)).1
  · exact ⟨hp, fun o ho => by simp at ho⟩

theorem Main_add_consistent (it : slruItem V) (m : Main V) (d : Index) (pre : Nodes V)
    (h : Consistent (pre ++ m.probation ++ m.prot) d) (hit : it.keyh = hash64 it.key) :
    Consistent (pre ++ (Main.add it (m, d)).1.probation ++ (Main.add it (m, d)).1.prot)
      (Main.add it (m, d)).2 := by
  have hp0 := Consistent_push ({ it with listid := 1 } : slruItem V) h hit
  have hp : Consistent (pre ++ ((d.next, ({ it with listid := 1 } : slruItem V)) ::
      m.probation) ++ m.prot) (d.register it.key) :=
    Consistent_of_mem_iff hp0 (fun n => by
      simp only [List.mem_append, List.mem_cons]; tauto)
  unfold Main.add
  simp only []
  split_ifs with hcap
  · cases hlast : ((d.next, ({ it with listid := 1 } : slruItem V)) ::
        m.probation).getLast? with
    | none => exact hp
    | some last =>
      have hsplit := mem_of_getLast? hlast
      simp only []
      refine Consistent_deregister last.2.key hp (fun n hn => ?_) (fun n hn hk => ?_)
      · simp only [List.mem_append] at hn ⊢
        rcases hn with (hn | hn) | hn
        · exact Or.inl (Or.inl hn)
        · exact Or.inl (Or.inr (List.mem_of_mem_dropLast hn))
        · exact Or.inr hn
      · simp only [List.mem_append] at hn ⊢
        rcases hn with (hn | hn) | hn
        · exact Or.inl (Or.inl hn)
        · rw [hsplit] at hn
          rcases List.mem_append.mp hn with hn | hn
          · exact Or.inl (Or.inr hn)
          · simp only [List.mem_singleton] at hn
            exact absurd (by rw [hn]) hk
        · exact Or.inr hn
  · exact hp

theorem sig_retag (i : Int) (n : Nat × slruItem V) : sig (retag i n) = sig n := rfl

theorem Main_get_consistent (e : Nat) (m : Main V) (d : Index) (pre : Nodes V)
    (h : Consistent (pre ++ m.probation ++ m.prot) d) :
    Consistent (pre ++ (Main.get e (m, d)).1.probation ++ (Main.get e (m, d)).1.prot)
      (Main.get e (m, d)).2 := by
  have hmid : Consistent (pre ++ m.probation.filter (fun n => n.1 != e) ++
      ((m.probation.filter (fun n => n.1 == e)).map (retag 2) ++ m.prot)) d := by
    refine Consistent_congr h (fun n hn => ?_) (fun n hn => ?_)
    · simp only [List.mem_append, List.mem_filter, List.mem_map] at hn
      rcases hn with (hn | hn) | (⟨x, hx, rfl⟩ | hn)
      · exact ⟨n, by simp [hn], rfl⟩
      · exact ⟨n, by simp [hn.1], rfl⟩
      · exact ⟨x, by simp [hx.1], sig_retag 2 x⟩
      · exact ⟨n, by simp [hn], rfl⟩
    · simp only [List.mem_append] at hn
      rcases hn with (hn | hn) | hn
      · exact ⟨n, by simp [hn], rfl⟩
      · by_cases he : n.1 = e
        · refine ⟨retag 2 n, ?_, sig_retag 2 n⟩
          simp only [List.mem_append, List.mem_map, List.mem_filter, beq_iff_eq]
          exact Or.inr (Or.inl ⟨n, ⟨hn, he⟩, rfl⟩)
        · exact ⟨n, by simp [hn, he], rfl⟩
      · exact ⟨n, by simp [hn], rfl⟩
  unfold Main.get
  simp only []
  split_ifs with hany hcap
  · refine Consistent_of_mem_iff h (fun n => ?_)
    simp only [List.mem_append, mem_moveToFront]
  · cases hlast : ((m.probation.filter (fun n => n.1 == e)).map (retag 2) ++
        m.prot).getLast? with
    | none => exact hmid
    | some last =>
      have hsplit := mem_of_getLast? hlast
      simp only []
      refine Consistent_congr hmid (fun n hn => ?_) (fun n hn => ?_)
      · simp only [List.mem_append, List.mem_cons] at hn
        rcases hn with (hn | rfl | hn) | hn
        · exact ⟨n, by simp [hn], rfl⟩
        · refine ⟨last, ?_, sig_retag 1 last⟩
          rw [hsplit]; simp
        · exact ⟨n, by simp only [List.mem_append]; exact Or.inl (Or.inr hn), rfl⟩
        · exact ⟨n, List.mem_append_right _ (List.mem_of_mem_dropLast hn), rfl⟩
      · rw [hsplit] at hn
        simp only [List.mem_append, List.mem_singleton] at hn
        rcases hn with (hn | hn) | (hn | rfl)
        · exact ⟨n, by simp [hn], rfl⟩
        · exact ⟨n, by simp only [List.mem_append, List.mem_cons]; exact Or.inl (Or.inr (Or.inr hn)), rfl⟩
        · exact ⟨n, by simp only [List.mem_append]; exact Or.inr hn, rfl⟩
        · exact ⟨retag 1 n, by simp, sig_retag 1 n⟩
  · exact hmid

theorem Add_lists {P : Parts V} (t : T P) (key : String) (val : V) :
    (t.Add key val).t.lru = (P.lruAdd ⟨0, key, val, P.hash key⟩ (t.lru, t.data)).2.1 ∧
      (((t.Add key val).t.slru = t.slru ∧
          (t.Add key val).t.data = (P.lruAdd ⟨0, key, val, P.hash key⟩ (t.lru, t.data)).2.2) ∨
        ∃ o, (P.lruAdd ⟨0, key, val, P.hash key⟩ (t.lru, t.data)).1 = some o ∧
          ((t.Add key val).t.slru, (t.Add key val).t.data) =
            P.slruAdd o (t.slru, (P.lruAdd ⟨0, key, val, P.hash key⟩ (t.lru, t.data)).2.2)) := by
  unfold T.Add
  simp only []
  split
  · exact ⟨rfl, Or.inl ⟨rfl, rfl⟩⟩
  · rename_i o ho
    split
    · exact ⟨rfl, Or.inr ⟨o, ho, rfl⟩⟩
    · split_ifs
      · exact ⟨rfl, Or.inl ⟨rfl, rfl⟩⟩
      · exact ⟨rfl, Or.inl ⟨rfl, rfl⟩⟩
      · exact ⟨rfl, Or.inr ⟨o, ho, rfl⟩⟩

theorem Get_lists {P : Parts V} (t : T P) (key : String) :
    ((t.Get key).t.lru = t.lru ∧ (t.Get key).t.slru = t.slru ∧
        (t.Get key).t.data = t.data) ∨
      (∃ e, ((t.Get key).t.lru, (t.Get key).t.data) = P.lruGet e (t.lru, t.data) ∧
        (t.Get key).t.slru = t.slru) ∨
      (∃ e, ((t.Get key).t.slru, (t.Get key).t.data) = P.slruGet e (t.slru, t.data) ∧
        (t.Get key).t.lru = t.lru) := by
  unfold T.Get
  simp only []
  split
  · split_ifs <;> exact Or.inl ⟨rfl, rfl, rfl⟩
  · rename_i e he
    split_ifs
    · exact Or.inr (Or.inl ⟨e, rfl, rfl⟩)
    · exact Or.inr (Or.inr ⟨e, rfl, rfl⟩)
    · exact Or.inr (Or.inl ⟨e, rfl, rfl⟩)
    · exact Or.inr (Or.inr ⟨e, rfl, rfl⟩)

theorem step_consistent [Inhabited V] (t : T (parts V)) (op : Op V)
    (h : Consistent (allNodes t) t.data) :
    Consistent (allNodes (t.step op)) (t.step op).data := by
  unfold allNodes at h ⊢
  cases op with
  | get key =>
    simp only [T.step]
    rcases Get_lists t key with ⟨h1, h2, h3⟩ | ⟨e, h1, h2⟩ | ⟨e, h1, h2⟩
    · rw [h1, h2, h3]; exact h
    · have hw := Window_get_consistent e t.lru t.data (t.slru.probation ++ t.slru.prot)
        (by rw [← List.append_assoc]; exact h)
      have e1 : (t.Get key).t.lru = (Window.get e (t.lru, t.data)).1 := congrArg Prod.fst h1
      have e2 : (t.Get key).t.data = (Window.get e (t.lru, t.data)).2 := congrArg Prod.snd h1
      rw [e1, e2, h2, List.append_assoc]; exact hw
    · have hm := Main_get_consistent e t.slru t.data t.lru.ll h
      have e1 : (t.Get key).t.slru = (Main.get e (t.slru, t.data)).1 := congrArg Prod.fst h1
      have e2 : (t.Get key).t.data = (Main.get e (t.slru, t.data)).2 := congrArg Prod.snd h1
      rw [e1, e2, h2]; exact hm
  | add key val =>
    simp only [T.step]
    obtain ⟨hl, hrest⟩ := Add_lists t key val
    obtain ⟨hw, ho⟩ := Window_add_consistent ⟨0, key, val, hash64 key⟩ t.lru t.data
      (t.slru.probation ++ t.slru.prot) (by rw [← List.append_assoc]; exact h) rfl
    rw [← List.append_assoc] at hw
    rcases hrest with ⟨h1, h2⟩ | ⟨o, h0, h1⟩
    · rw [hl, h1, h2]; exact hw
    · have hm := Main_add_consistent o t.slru
        (Window.add ⟨0, key, val, hash64 key⟩ (t.lru, t.data)).2.2
        (Window.add ⟨0, key, val, hash64 key⟩ (t.lru, t.data)).2.1.ll hw (ho o h0)
      have e1 : (t.Add key val).t.slru = (Main.add o (t.slru,
          (Window.add ⟨0, key, val, hash64 key⟩ (t.lru, t.data)).2.2)).1 :=
        congrArg Prod.fst h1
      have e2 : (t.Add key val).t.data = (Main.add o (t.slru,
          (Window.add ⟨0, key, val, hash64 key⟩ (t.lru, t.data)).2.2)).2 :=
        congrArg Prod.snd h1
      rw [hl, e1, e2]; exact hm

theorem run_consistent [Inhabited V] (t : T (parts V)) (ops : List (Op V))
    (h : Consistent (allNodes t) t.data) :
    Consistent (allNodes (t.run ops)) (t.run ops).data := by
  induction ops using List.reverseRecOn with
  | nil => exact h
  | append_singleton ops op ih =>
    rw [run_snoc]; exact step_consistent _ op ih

theorem New_consistent [Inhabited V] (cfg : Config V) :
    Consistent (allNodes (New (parts V) cfg)) (New (parts V) cfg).data := by
  refine ⟨fun n hn => ?_, fun n hn => ?_, fun p hp => ?_⟩
  · exact absurd hn (List.not_mem_nil n)
  · exact absurd hn (List.not_mem_nil n)
  · exact absurd hp (List.not_mem_nil p)

theorem mem_of_lookup {α β : Type} [BEq α] [LawfulBEq α] (l : List (α × β)) (a : α) (b : β)
    (h : l.lookup a = some b) : (a, b) ∈ l := by
  induction l with
  | nil => simp at h
  | cons p l ih =>
    obtain ⟨x, y⟩ := p
    rw [List.lookup_cons] at h
    by_cases hx : (a == x) = true
    · rw [hx] at h
      simp only [Option.some.injEq] at h
      rw [eq_of_beq hx, h]; exact List.mem_cons_self _ _
    · simp only [Bool.not_eq_true] at hx
      rw [hx] at h
      exact List.mem_cons_of_mem _ (ih h)

theorem lookup_of_mem {α β : Type} [BEq α] [LawfulBEq α] (l : List (α × β)) (a : α)
    (h : ∃ p ∈ l, p.1 = a) : ∃ b, l.lookup a = some b := by
  induction l with
  | nil => obtain ⟨p, hp, _⟩ := h; exact absurd hp (List.not_mem_nil p)
  | cons q l ih =>
    obtain ⟨x, y⟩ := q
    rw [List.lookup_cons]
    by_cases hx : (a == x) = true
    · rw [hx]; exact ⟨y, rfl⟩
    · simp only [Bool.not_eq_true] at hx
      rw [hx]
      obtain ⟨p, hp, hpa⟩ := h
      rcases List.mem_cons.mp hp with rfl | hp
      · simp only at hpa
        rw [hpa] at hx; simp at hx
      · exact ih ⟨p, hp, hpa⟩

theorem Consistent_item [Inhabited V] (l : Window V) (m : Main V) (d : Index)
    (h : Consistent (l.ll ++ m.probation ++ m.prot) d) (key : String) (e : Nat)
    (hfind : d.find key = some e) :
    (itemOf l m e).key = key ∧ (itemOf l m e).keyh = hash64 key := by
  obtain ⟨h1, h2, h3⟩ := h
  have hmem := mem_of_lookup d.m key e hfind
  obtain ⟨n, hn, hne, hnk⟩ := h3 (key, e) hmem
  obtain ⟨it, hit⟩ := lookup_of_mem (l.ll ++ m.probation ++ m.prot) e ⟨n, hn, hne⟩
  have hitmem := mem_of_lookup _ e it hit
  have hkey : it.key = key := by
    have := h2 (e, it) hitmem n hn hne.symm
    simp only at this hnk
    rw [this, hnk]
  unfold itemOf
  rw [hit]
  simp only []
  exact ⟨hkey, by rw [← hkey]; exact (h1 (e, it) hitmem).1⟩

theorem Add_first_call {P : Parts V} (t : T P) (key : String) (val : V) :
    (t.Add key val).calls.head? = some (Call.lruAdd ⟨0, key, val, P.hash key⟩) := by
  unfold T.Add
  simp only []
  split
  · rfl
  · split
    · rfl
    · split_ifs <;> rfl

theorem Get_cmAdd {P : Parts V} (t : T P) (key : String) (h : Nat) :
    Call.cmAdd h ∈ (t.Get key).calls ↔
      h = (match P.lookup t.data key with
        | none => P.hash key
        | some e => (P.item t.lru t.slru e).keyh) := by
  unfold T.Get
  cases hl : P.lookup t.data key with
  | none => by_cases hw : wrap64 (t.w + 1) = t.samples <;> simp [hw, hl]
  | some e =>
    by_cases hw : wrap64 (t.w + 1) = t.samples <;>
      by_cases hi : (P.item t.lru t.slru e).listid = 0 <;> simp [hw, hl, hi]

/-- C19: every entry `Add` constructs and hands to the Window is tagged `listid = 0`
and carries the hash of its own key.  With the lists and the index of the spec, in
every state reached from `New` by calls of `Get` and `Add` the entry indexed under a
key holds that key and the hash of that key, and `Get(key)` records its observation
under `Hash64Str(key, 0)` and under no other fingerprint, whether the key is indexed
or not. -/
theorem fingerprint_consistency [Inhabited V] (cfg : Config V) (ops : List (Op V))
    (key : String) (val : V) :
    (((New (parts V) cfg).run ops).Add key val).calls.head? =
        some (Call.lruAdd ⟨0, key, val, hash64 key⟩) ∧
      (∀ e, Index.find ((New (parts V) cfg).run ops).data key = some e →
        (itemOf ((New (parts V) cfg).run ops).lru ((New (parts V) cfg).run ops).slru e).key
            = key ∧
          (itemOf ((New (parts V) cfg).run ops).lru
            ((New (parts V) cfg).run ops).slru e).keyh = hash64 key) ∧
      (∀ h, Call.cmAdd h ∈ (((New (parts V) cfg).run ops).Get key).calls ↔
        h = hash64 key) := by
  have hc := run_consistent (New (parts V) cfg) ops (New_consistent cfg)
  have hitem := fun e he => Consistent_item ((New (parts V) cfg).run ops).lru
    ((New (parts V) cfg).run ops).slru ((New (parts V) cfg).run ops).data hc key e he
  refine ⟨Add_first_call _ key val, hitem, fun h => ?_⟩
  rw [Get_cmAdd]
  cases hfind : Index.find ((New (parts V) cfg).run ops).data key with
  | none =>
    have : (parts V).lookup ((New (parts V) cfg).run ops).data key = none := hfind
    rw [this]; rfl
  | some e =>
    have : (parts V).lookup ((New (parts V) cfg).run ops).data key = some e := hfind
    rw [this]
    simp only []
    have := (hitem e hfind).2
    constructor
    · intro hh; rw [hh]; exact this
    · intro hh; rw [hh]; exact this.symm

theorem fingerprint_consistency_witness :
    (itemOf ((New (parts String) ⟨3, 10, none⟩).run
        [Op.add "a" "1", Op.add "b" "2", Op.get "a", Op.add "c" "3"]).lru
      ((New (parts String) ⟨3, 10, none⟩).run
        [Op.add "a" "1", Op.add "b" "2", Op.get "a", Op.add "c" "3"]).slru 2).keyh =
      hash64 "a" :=
  ((fingerprint_consistency ⟨3, 10, none⟩
    [Op.add "a" "1", Op.add "b" "2", Op.get "a", Op.add "c" "3"] "a" "x").2.1 2
      (by rw [fresh_eq_New]; rfl)).2

/-! ## The number of resident entries -/

theorem length_moveToFront (e : Nat) (ll : Nodes V) : (moveToFront e ll).length = ll.length := by
  unfold moveToFront
  exact (List.filter_append_perm (fun n => n.1 == e) ll).length_eq

theorem ids_moveToFront (e : Nat) (ll : Nodes V) : (ids (moveToFront e ll)).Perm (ids ll) := by
  unfold moveToFront ids
  exact (List.filter_append_perm (fun n => n.1 == e) ll).map _

theorem Window_add_length (it : slruItem V) (w : Window V) (d : Index)
    (h : (w.ll.length : Int) ≤ w.cap) :
    ((Window.add it (w, d)).2.1.ll.length : Int) ≤ (Window.add it (w, d)).2.1.cap ∧
      (Window.add it (w, d)).2.1.cap = w.cap := by
  unfold Window.add
  simp only []
  split_ifs with hcap
  · cases hlast : ((d.next, it) :: w.ll).getLast? with
    | none => simp at hlast
    | some last =>
      simp only [List.length_dropLast, List.length_cons, and_true]
      simp only [Nat.add_sub_cancel]
      exact h
  · simp only [List.length_cons, and_true] at hcap ⊢
    push_cast at hcap ⊢
    omega

theorem Window_get_length (e : Nat) (w : Window V) (d : Index) :
    (Window.get e (w, d)).1.ll.length = w.ll.length ∧ (Window.get e (w, d)).1.cap = w.cap := by
  simp [Window.get, length_moveToFront]

theorem filter_id_length_le_one (l : Nodes V) (e : Nat) (h : (ids l).Nodup) :
    (l.filter (fun n => n.1 == e)).length ≤ 1 := by
  induction l with
  | nil => simp
  | cons x l ih =>
    unfold ids at h ih
    rw [List.map_cons, List.nodup_cons] at h
    by_cases hx : x.1 = e
    · have hnone : l.filter (fun n => n.1 == e) = [] := by
        rw [List.filter_eq_nil_iff]
        intro n hn hne
        simp only [beq_iff_eq] at hne
        exact h.1 (List.mem_map.mpr ⟨n, hn, by rw [hne, hx]⟩)
      rw [List.filter_cons_of_pos (by simpa using hx), hnone]; simp
    · rw [List.filter_cons_of_neg (by simpa using hx)]
      exact ih h.2

theorem Main_add_within (it : slruItem V) (m : Main V) (d : Index) (h : m.Within)
    (hnext : ∀ n ∈ m.probation ++ m.prot, n.1 < d.next) :
    (Main.add it (m, d)).1.Within ∧ (Main.add it (m, d)).1.probCap = m.probCap ∧
      (Main.add it (m, d)).1.protCap = m.protCap := by
  obtain ⟨h1, h2, h3, h4⟩ := h
  have hfresh : (ids ((d.next, ({ it with listid := 1 } : slruItem V)) :: m.probation ++
      m.prot)).Nodup := by
    unfold ids at h4 ⊢
    rw [List.cons_append, List.map_cons, List.nodup_cons]
    refine ⟨fun hmem => ?_, h4⟩
    obtain ⟨n, hn, hne⟩ := List.mem_map.mp hmem
    have := hnext n hn
    simp only at hne
    omega
  unfold Main.add Main.Within
  simp only []
  split_ifs with hcap
  · cases hlast : ((d.next, ({ it with listid := 1 } : slruItem V)) ::
        m.probation).getLast? with
    | none => simp at hlast
    | some last =>
      simp only [List.length_dropLast, List.length_cons, Nat.add_sub_cancel, and_true]
      refine ⟨h1, h2, h3, ?_⟩
      refine List.Nodup.sublist ?_ hfresh
      unfold ids
      exact ((List.dropLast_sublist _).append_right _).map _
  · simp only [List.length_cons, and_true] at hcap ⊢
    push_cast at hcap ⊢
    exact ⟨by omega, h2, h3, hfresh⟩

theorem ids_retag (i : Int) (l : Nodes V) : ids (l.map (retag i)) = ids l := by
  unfold ids
  rw [List.map_map]
  rfl

theorem Main_get_within (e : Nat) (m : Main V) (d : Index) (h : m.Within) :
    (Main.get e (m, d)).1.Within ∧ (Main.get e (m, d)).1.probCap = m.probCap ∧
      (Main.get e (m, d)).1.protCap = m.protCap ∧
      (Main.get e (m, d)).1.probation.length + (Main.get e (m, d)).1.prot.length =
        m.probation.length + m.prot.length := by
  obtain ⟨h1, h2, h3, h4⟩ := h
  have hnd : (ids m.probation).Nodup := by
    unfold ids at h4 ⊢
    rw [List.map_append] at h4
    exact (List.nodup_append.mp h4).1
  have hhit := filter_id_length_le_one m.probation e hnd
  have hsplit : (m.probation.filter (fun n => n.1 == e)).length +
      (m.probation.filter (fun n => n.1 != e)).length = m.probation.length := by
    have := (List.filter_append_perm (fun n : Nat × slruItem V => n.1 == e) m.probation).length_eq
    rw [List.length_append] at this
    exact this
  have hperm : (ids (m.probation.filter (fun n => n.1 != e) ++
      ((m.probation.filter (fun n => n.1 == e)).map (retag 2) ++ m.prot))).Perm
      (ids (m.probation ++ m.prot)) := by
    have e1 : ids (m.probation.filter (fun n => n.1 != e) ++
        ((m.probation.filter (fun n => n.1 == e)).map (retag 2) ++ m.prot)) =
        ids (m.probation.filter (fun n => n.1 != e)) ++
          ids (m.probation.filter (fun n => n.1 == e)) ++ ids m.prot := by
      rw [← ids_retag 2 (m.probation.filter (fun n => n.1 == e))]
      unfold ids
      simp only [List.map_append, List.append_assoc]
    have e2 : ids (m.probation ++ m.prot) = ids m.probation ++ ids m.prot := by
      unfold ids; rw [List.map_append]
    rw [e1, e2]
    refine List.Perm.append_right _ ?_
    have := (List.filter_append_perm (fun n : Nat × slruItem V => n.1 == e) m.probation).map
      Prod.fst
    rw [List.map_append] at this
    exact List.perm_append_comm.trans this
  unfold Main.get Main.Within
  simp only []
  split_ifs with hany hcap
  · simp only [length_moveToFront, and_true]
    refine ⟨h1, h2, fun hc => ?_, ?_⟩
    · rw [h3 hc] at hany; simp at hany
    · have e2 : ids (m.probation ++ moveToFront e m.prot) =
          ids m.probation ++ ids (moveToFront e m.prot) := by
        unfold ids; rw [List.map_append]
      have e3 : ids (m.probation ++ m.prot) = ids m.probation ++ ids m.prot := by
        unfold ids; rw [List.map_append]
      rw [e2]
      rw [e3] at h4
      exact ((ids_moveToFront e m.prot).append_left _).nodup_iff.mpr h4
  · cases hlast : ((m.probation.filter (fun n => n.1 == e)).map (retag 2) ++
        m.prot).getLast? with
    | none =>
      simp only [and_true]
      rw [List.getLast?_eq_none_iff] at hlast
      rw [hlast] at hcap hperm ⊢
      simp only [List.length_nil] at hcap
      have : (0 : Int) ≤ m.prot.length := Int.natCast_nonneg _
      omega
    | some last =>
      have hs := mem_of_getLast? hlast
      have hlen : ((m.probation.filter (fun n => n.1 == e)).map (retag 2) ++
          m.prot).dropLast.length + 1 = (m.probation.filter (fun n => n.1 == e)).length +
          m.prot.length := by
        have := congrArg List.length hs
        simp only [List.length_append, List.length_map, List.length_singleton] at this
        omega
      simp only [List.length_cons, List.length_append, List.length_map] at hcap
      simp only [List.length_cons, and_true]
      refine ⟨⟨?_, ?_, fun hc => ?_, ?_⟩, ?_⟩
      · push_cast at hcap ⊢; omega
      · push_cast at hcap ⊢; omega
      · have hp0 : m.probation = [] := by
          have : m.probation.length = 0 := by
            have : (0 : Int) ≤ m.probation.length := Int.natCast_nonneg _
            omega
          exact List.length_eq_zero.mp this
        rw [hp0, h3 hc] at hlast
        simp at hlast
      · have e1 : ids (retag 1 last :: m.probation.filter (fun n => n.1 != e) ++
            ((m.probation.filter (fun n => n.1 == e)).map (retag 2) ++
              m.prot).dropLast) = last.1 :: (ids (m.probation.filter (fun n => n.1 != e)) ++
            ids ((m.probation.filter (fun n => n.1 == e)).map (retag 2) ++
              m.prot).dropLast) := by
          unfold ids
          simp only [List.cons_append, List.map_cons, List.map_append]
          rfl
        have e2 : ids (m.probation.filter (fun n => n.1 != e) ++
            ((m.probation.filter (fun n => n.1 == e)).map (retag 2) ++ m.prot)) =
            ids (m.probation.filter (fun n => n.1 != e)) ++
            (ids ((m.probation.filter (fun n => n.1 == e)).map (retag 2) ++
              m.prot).dropLast ++ [last.1]) := by
          conv_lhs => rw [hs]
          unfold ids
          simp only [List.map_append, List.map_cons, List.map_nil]
        rw [e1]
        have hp2 := hperm.nodup_iff.mpr h4
        rw [e2, ← List.append_assoc] at hp2
        exact (List.perm_append_singleton _ _).nodup_iff.mp hp2
      · exact ⟨trivial, trivial, by omega⟩
  · simp only [List.length_append, List.length_map, and_true] at hcap ⊢
    refine ⟨⟨?_, ?_, fun hc => ?_, hperm.nodup_iff.mpr h4⟩, ?_⟩
    · omega
    · push_cast at hcap ⊢; omega
    · have hp0 : m.probation = [] := by
        have : m.probation.length = 0 := by
          have : (0 : Int) ≤ m.probation.length := Int.natCast_nonneg _
          omega
        exact List.length_eq_zero.mp this
      rw [hp0, h3 hc]; rfl
    · exact ⟨trivial, trivial, by omega⟩

theorem step_bounded [Inhabited V] (a b c : Int) (t : T (parts V)) (op : Op V)
    (hc : Consistent (allNodes t) t.data) (h : Bounded a b c t) :
    Bounded a b c (t.step op) := by
  obtain ⟨ha, hb, hcc, hl, hm⟩ := h
  unfold Bounded
  cases op with
  | get key =>
    simp only [T.step]
    rcases Get_lists t key with ⟨h1, h2, h3⟩ | ⟨e, h1, h2⟩ | ⟨e, h1, h2⟩
    · rw [h1, h2]; exact ⟨ha, hb, hcc, hl, hm⟩
    · have e1 : (t.Get key).t.lru = (Window.get e (t.lru, t.data)).1 := congrArg Prod.fst h1
      obtain ⟨hlen, hcap⟩ := Window_get_length e t.lru t.data
      rw [e1, h2, hlen, hcap]; exact ⟨ha, hb, hcc, hl, hm⟩
    · have e1 : (t.Get key).t.slru = (Main.get e (t.slru, t.data)).1 := congrArg Prod.fst h1
      obtain ⟨hw, hpc, hqc, _⟩ := Main_get_within e t.slru t.data hm
      rw [e1, h2, hpc, hqc]; exact ⟨ha, hb, hcc, hl, hw⟩
  | add key val =>
    simp only [T.step]
    obtain ⟨hlru, hrest⟩ := Add_lists t key val
    obtain ⟨hwl, hwc⟩ := Window_add_length ⟨0, key, val, hash64 key⟩ t.lru t.data
      (by rw [ha]; exact hl)
    have hlru' : (t.Add key val).t.lru =
        (Window.add ⟨0, key, val, hash64 key⟩ (t.lru, t.data)).2.1 := hlru
    rw [hlru', hwc, ha]
    rw [hwc, ha] at hwl
    rcases hrest with ⟨h1, h2⟩ | ⟨o, h0, h1⟩
    · rw [h1]; exact ⟨rfl, hb, hcc, hwl, hm⟩
    · obtain ⟨hw, _⟩ := Window_add_consistent ⟨0, key, val, hash64 key⟩ t.lru t.data
        (t.slru.probation ++ t.slru.prot)
        (by unfold allNodes at hc; rw [← List.append_assoc]; exact hc) rfl
      have hnext : ∀ n ∈ t.slru.probation ++ t.slru.prot,
          n.1 < (Window.add ⟨0, key, val, hash64 key⟩ (t.lru, t.data)).2.2.next :=
        fun n hn => (hw.1 n (List.mem_append_right _ hn)).2
      obtain ⟨hmw, hpc, hqc⟩ := Main_add_within o t.slru
        (Window.add ⟨0, key, val, hash64 key⟩ (t.lru, t.data)).2.2 hm hnext
      have e1 : (t.Add key val).t.slru = (Main.add o (t.slru,
          (Window.add ⟨0, key, val, hash64 key⟩ (t.lru, t.data)).2.2)).1 :=
        congrArg Prod.fst h1
      rw [e1, hpc, hqc]; exact ⟨rfl, hb, hcc, hwl, hmw⟩

theorem run_bounded [Inhabited V] (a b c : Int) (t : T (parts V)) (ops : List (Op V))
    (hc : Consistent (allNodes t) t.data) (h : Bounded a b c t) :
    Bounded a b c (t.run ops) := by
  induction ops using List.reverseRecOn with
  | nil => exact h
  | append_singleton ops op ih =>
    rw [run_snoc]; exact step_bounded a b c _ op (run_consistent t ops hc) ih

theorem Bounded_length [Inhabited V] (a b c : Int) (t : T (parts V)) (h : Bounded a b c t) :
    ((allNodes t).length : Int) ≤ a + (if c ≤ 0 then 0 else c + b) := by
  obtain ⟨ha, hb, hcc, hl, h1, h2, h3, _⟩ := h
  unfold allNodes
  rw [hcc] at h1 h3
  rw [hb] at h2
  simp only [List.length_append]
  push_cast
  split_ifs with hc
  · rw [h3 hc]
    simp only [List.length_nil, Nat.cast_zero]
    omega
  · omega

theorem New_bounded [Inhabited V] (cfg : Config V) (h46 : cfg.Size < 2 ^ 46) :
    Bounded (lruSize cfg.Size) (slru20 cfg.Size) (slruSize cfg.Size - slru20 cfg.Size)
      (New (parts V) cfg) := by
  refine ⟨rfl, rfl, rfl, ?_, ?_, ?_, fun _ => rfl, List.nodup_nil⟩
  · have := lruSize_pos cfg.Size
    show ((0 : Nat) : Int) ≤ lruSize cfg.Size
    omega
  · show ((0 : Nat) : Int) ≤ slruSize cfg.Size - slru20 cfg.Size
    have := (slruSize_bounds cfg.Size h46).1
    rw [slru20_eq cfg.Size h46]
    omega
  · have := slru20_pos cfg.Size
    show ((0 : Nat) : Int) ≤ slru20 cfg.Size
    omega

/-- C2 (amended): for every `Size` from 1 up to `2 ^ 46`, `lruSize = max(1, Size/100)`
and `slruSize = max(1, floor(99 * Size / 100))`; from `Size = 2` on the two capacities
sum to at most `Size`; and with the lists of the spec, in every state reached from
`New` by calls of `Get` and `Add` the number of entries resident in Window, Probation
and Protected, and so the number of resident keys, is at most `Size` (at `Size = 1`
too, where Probation has capacity 0 and the Main Cache stays empty). -/
theorem capacity_bound [Inhabited V] (cfg : Config V) (ops : List (Op V))
    (h1 : 1 ≤ cfg.Size) (h46 : cfg.Size < 2 ^ 46) :
    lruSize cfg.Size = max 1 (cfg.Size / 100) ∧
      slruSize cfg.Size = max 1 (99 * cfg.Size / 100) ∧
      (2 ≤ cfg.Size → lruSize cfg.Size + slruSize cfg.Size ≤ cfg.Size) ∧
      ((allNodes ((New (parts V) cfg).run ops)).length : Int) ≤ cfg.Size ∧
      ((((allNodes ((New (parts V) cfg).run ops)).map
        (fun n => n.2.key)).dedup.length : Int) ≤ cfg.Size) := by
  have hl := lruSize_eq cfg.Size (by omega)
  have hs := slruSize_eq cfg.Size (by omega) h46
  have h20 := slru20_eq cfg.Size h46
  have hb := Bounded_length _ _ _ _
    (run_bounded _ _ _ (New (parts V) cfg) ops (New_consistent cfg) (New_bounded cfg h46))
  have hlen : ((allNodes ((New (parts V) cfg).run ops)).length : Int) ≤ cfg.Size := by
    refine le_trans hb ?_
    rw [hl, h20, hs]
    split_ifs with hc <;> omega
  refine ⟨hl, hs, fun h2 => by rw [hl, hs]; omega, hlen, le_trans ?_ hlen⟩
  have := (List.dedup_sublist ((allNodes ((New (parts V) cfg).run ops)).map
    (fun n => n.2.key))).length_le
  rw [List.length_map] at this
  exact_mod_cast this

theorem capacity_bound_witness :
    ((allNodes ((New (parts String) ⟨1, 10, none⟩).run
        [Op.add "a" "1", Op.add "b" "2", Op.get "b", Op.add "c" "3"])).length : Int) ≤ 1 ∧
      lruSize 10 + slruSize 10 ≤ 10 :=
  ⟨(capacity_bound (⟨1, 10, none⟩ : Config String)
      [Op.add "a" "1", Op.add "b" "2", Op.get "b", Op.add "c" "3"]
      (by decide) (by decide)).2.2.2.1,
    (capacity_bound (⟨10, 10, none⟩ : Config String) [] (by decide) (by decide)).2.2.1
      (by decide)⟩

end TinyLFU
